import Mathlib

/-!
Sensor buffer: `Solution/sensor.c` and `src/sensor.c`.

A shallow embedding of the sensor program.  The C `int` is 32 bits wide; a
value of that type is an `Int` in `[INT_MIN, INT_MAX]` and every addition the
C code performs on an `int` is followed by `wrap32` (two's complement
reduction, the behaviour of the target's `add`; ISO C leaves the overflowing
case undefined).  The block `readings` points to is a `List Int` whose length
is the number of `int` cells that were allocated; every access goes through a
bounds check, and an access outside the block is the fault `outOfBounds`.

Stateful code is written as explicit state passing over `State`, which pairs
the `SensorData` structure with the chronological trace of the events
(lock operations and memory accesses) executed so far.
-/

namespace Sensor

/-! ## Machine integers -/

def INT_MIN : Int := -2147483648

def INT_MAX : Int := 2147483647

/-- Reduction of a mathematical integer to the 32-bit two's complement `int`. -/
def wrap32 (x : Int) : Int := (x + 2147483648) % 4294967296 - 2147483648

/-- The value is representable in a C `int`. -/
def InRange (x : Int) : Prop := INT_MIN ≤ x ∧ x ≤ INT_MAX

instance instDecidableInRange (x : Int) : Decidable (InRange x) :=
  inferInstanceAs (Decidable (INT_MIN ≤ x ∧ x ≤ INT_MAX))

/-! ## Data model -/

/-- Ways in which an execution leaves defined behaviour. -/
inductive Fault where
  /-- An access to `readings[i]` outside the allocated block. -/
  | outOfBounds (i : Nat)
  /-- An `int` division `a / b` with `b == 0`. -/
  | divByZero
  /-- The `int` division `INT_MIN / -1`, whose quotient is not an `int`. -/
  | divOverflow
  /-- The call `pthread_mutex_lock` on a mutex that is held: the caller waits. -/
  | blocked
  /-- The call `pthread_mutex_unlock` by a thread that does not hold the mutex. -/
  | notOwner
  deriving DecidableEq

/-- Observable events of an execution, in program order. -/
inductive Event where
  | acquire (tid : Nat)
  | release (tid : Nat)
  | rd (i : Nat)
  | wr (i : Nat)
  | nap
  deriving DecidableEq

/-- The structure `SensorData` of `sensor.h`: `readings` is the allocated block,
`count` the `int` field, `lock` the mutex (`none` when free, `some t` when
thread `t` holds it). -/
structure SensorData where
  readings : List Int
  count : Int
  lock : Option Nat
  deriving DecidableEq

/-- A `SensorData` together with the trace of events executed on it. -/
structure State where
  sensor : SensorData
  trace : List Event
  deriving DecidableEq

/-- Bounds-checked read of `readings[i]`. -/
def load (i : Nat) (st : State) : Except Fault (Int × State) :=
  match st.sensor.readings[i]? with
  | some v => .ok (v, { st with trace := st.trace ++ [Event.rd i] })
  | none => .error (Fault.outOfBounds i)

/-- Bounds-checked write `readings[i] = v`. -/
def store (i : Nat) (v : Int) (st : State) : Except Fault State :=
  if i < st.sensor.readings.length then
    .ok { sensor := { st.sensor with readings := st.sensor.readings.set i v },
          trace := st.trace ++ [Event.wr i] }
  else .error (Fault.outOfBounds i)

/-- The counted loop `for (int i = lo; i < hi; i++) body`, whose body changes
neither `i` nor the bound: `forLoop body lo k` runs the body at `lo`, `lo+1`,
..., for the `k = hi - lo` iterations the loop test admits, and stops at the
first fault. -/
def forLoop {σ : Type} (body : Nat → σ → Except Fault σ) : Nat → Nat → σ → Except Fault σ
  | _, 0, s => .ok s
  | i, k + 1, s =>
    match body i s with
    | .ok s' => forLoop body (i + 1) k s'
    | .error e => .error e

/-- The C expression `a / b` on `int` operands: the quotient truncated toward
zero.  C leaves `a / 0` and `INT_MIN / -1` undefined; they are the faults
`divByZero` and `divOverflow`. -/
def int_div (a b : Int) : Except Fault Int :=
  if b = 0 then .error Fault.divByZero
  else if a = INT_MIN ∧ b = -1 then .error Fault.divOverflow
  else .ok (Int.tdiv a b)

/-! ## `Solution/sensor.c` -/

/-- The block returned by `malloc(sizeof(int) * count)`: `count` cells (the
allocation is taken to succeed; the content of the cells is indeterminate in C
and is taken as 0 here, `init_sensor` writes every cell before anything reads
it).  For `count <= 0` the block has no cell. -/
def malloc_ints (count : Int) : List Int := List.replicate count.toNat 0

/-- The function `init_sensor` of `Solution/sensor.c`.  `rand k` is the value returned by
the `k`-th call of `rand()`; `%` is C's truncated remainder.  The function has
no test of `count`. -/
def init_sensor (count : Int) (rand : Nat → Int) : Except Fault State :=
  forLoop (fun i st => store i (Int.tmod (rand i) 100) st) 0 count.toNat
    { sensor := { readings := malloc_ints count, count := count, lock := none },
      trace := [] }

/-- The function `compute_average` of `Solution/sensor.c` (and, line for line, of
`src/sensor.c`): the `int` accumulator `sum`, the loop of reads, and the `int`
division `sum / s->count`, whose (integral) quotient is then converted to
`double` without loss.  The function has no test of `count`.  The result is
that quotient, with the state the function leaves behind. -/
def compute_average (st : State) : Except Fault (Int × State) :=
  match forLoop
      (fun i (acc : Int × State) =>
        match load i acc.2 with
        | .ok (v, st') => .ok (wrap32 (acc.1 + v), st')
        | .error e => .error e)
      0 st.sensor.count.toNat (0, st) with
  | .ok (sum, st') =>
    match int_div sum st'.sensor.count with
    | .ok q => .ok (q, st')
    | .error e => .error e
  | .error e => .error e

/-! ## Worker threads -/

/-- The atomic actions a worker performs.  The statement
`s->readings[i] += d` is the pair `ld i`, `st i d`: the read of the cell into
the thread's register, then the write of register plus `d`. -/
inductive Action where
  | lock
  | unlock
  | ld (i : Nat)
  | st (i : Nat) (d : Int)
  | sleep (us : Nat)
  deriving DecidableEq

/-- The actions of `for (int i = lo; i < hi; i++) body`, `k = hi - lo`. -/
def loopActions (body : Nat → List Action) : Nat → Nat → List Action
  | _, 0 => []
  | i, k + 1 => body i ++ loopActions body (i + 1) k

/-- The function `sensor_thread` of `Solution/sensor.c`: lock, the loop of `+= 5`, unlock.
`count` is the field `s->count`, which no worker writes. -/
def sensor_thread (count : Int) : List Action :=
  [Action.lock] ++ loopActions (fun i => [Action.ld i, Action.st i 5]) 0 count.toNat
    ++ [Action.unlock]

/-- The function `sensor_thread` of `src/sensor.c`: per element lock, `+= 5`, unlock,
`usleep(5000)`. -/
def Src.sensor_thread (count : Int) : List Action :=
  loopActions
    (fun i => [Action.lock, Action.ld i, Action.st i 5, Action.unlock, Action.sleep 5000])
    0 count.toNat

/-- One atomic action of thread `tid`, whose register holds `tmp`. -/
def exec (tid : Nat) (a : Action) (tmp : Int) (st : State) : Except Fault (Int × State) :=
  match a with
  | Action.lock =>
    if st.sensor.lock = none then
      .ok (tmp, { sensor := { st.sensor with lock := some tid },
                  trace := st.trace ++ [Event.acquire tid] })
    else .error Fault.blocked
  | Action.unlock =>
    if st.sensor.lock = some tid then
      .ok (tmp, { sensor := { st.sensor with lock := none },
                  trace := st.trace ++ [Event.release tid] })
    else .error Fault.notOwner
  | Action.ld i => load i st
  | Action.st i d =>
    match store i (wrap32 (tmp + d)) st with
    | .ok st' => .ok (tmp, st')
    | .error e => .error e
  | Action.sleep _ => .ok (tmp, { st with trace := st.trace ++ [Event.nap] })

/-- A thread running its actions to the end with no other thread stepping. -/
def runThread (tid : Nat) : List Action → Int → State → Except Fault (Int × State)
  | [], tmp, st => .ok (tmp, st)
  | a :: rest, tmp, st =>
    match exec tid a tmp st with
    | .ok (tmp', st') => runThread tid rest tmp' st'
    | .error e => .error e

/-- One complete run of the batch `sensor_thread` by thread `tid`. -/
def pass (tid : Nat) (st : State) : Except Fault State :=
  match runThread tid (sensor_thread st.sensor.count) 0 st with
  | .ok (_, st') => .ok st'
  | .error e => .error e

/-- The passes of workers `tids`, one after the other in the order of the list. -/
def passes : List Nat → State → Except Fault State
  | [], st => .ok st
  | t :: ts, st =>
    match pass t st with
    | .ok st' => passes ts st'
    | .error e => .error e

/-! ## Interleaved execution -/

/-- A worker in flight: the actions it has still to perform and its register. -/
structure Thread where
  todo : List Action
  tmp : Int
  deriving DecidableEq

/-- The shared state and the workers. -/
structure Config where
  st : State
  threads : List Thread
  deriving DecidableEq

/-- Thread `tid` performs its next action.  `none` when it cannot: the thread
has finished, waits for the mutex, or faults. -/
def step (tid : Nat) (c : Config) : Option Config :=
  match c.threads[tid]? with
  | some ⟨a :: rest, tmp⟩ =>
    match exec tid a tmp c.st with
    | .ok (tmp', st') => some { st := st', threads := c.threads.set tid ⟨rest, tmp'⟩ }
    | .error _ => none
  | _ => none

/-- The execution that follows a schedule (the thread to step, step by step). -/
def runSched : List Nat → Config → Option Config
  | [], c => some c
  | t :: ts, c =>
    match step t c with
    | some c' => runSched ts c'
    | none => none

/-- Every worker has performed all its actions. -/
def allDone (c : Config) : Bool := c.threads.all (fun th => th.todo.isEmpty)

/-- State at `pthread_create` time: `n` workers, each about to run `prog`. -/
def spawn (n : Nat) (prog : List Action) (st : State) : Config :=
  { st := st, threads := List.replicate n ⟨prog, 0⟩ }

/-- A buffer as data: the samples, the matching `count`, a free mutex. -/
def mkState (samples : List Int) : State :=
  { sensor := { readings := samples, count := samples.length, lock := none }, trace := [] }

/-! ## Traces -/

/-- The events of the loop of `+= 5` from index `i` for `k` iterations. -/
def rmwEvents : Nat → Nat → List Event
  | _, 0 => []
  | i, k + 1 => Event.rd i :: Event.wr i :: rmwEvents (i + 1) k

/-- The events of one batch pass of thread `tid` over `count` samples. -/
def passEvents (count : Int) (tid : Nat) : List Event :=
  [Event.acquire tid] ++ rmwEvents 0 count.toNat ++ [Event.release tid]

/-! ## Lock discipline and pending updates -/

/-- Where a worker stands with respect to the mutex: outside the critical
section, inside it, or inside it between the read and the write of
`readings[i] += d`. -/
inductive Phase where
  | out
  | inside
  | loaded (i : Nat)
  deriving DecidableEq

/-- The remaining actions of a worker in phase `ph` follow the lock
discipline: accesses only inside the critical section, each read followed by
the write of the same cell, and the mutex released at the end. -/
def disciplined : Phase → List Action → Bool
  | Phase.out, [] => true
  | Phase.out, Action.lock :: r => disciplined Phase.inside r
  | Phase.out, Action.sleep _ :: r => disciplined Phase.out r
  | Phase.inside, Action.unlock :: r => disciplined Phase.out r
  | Phase.inside, Action.ld i :: r => disciplined (Phase.loaded i) r
  | Phase.loaded i, Action.st j _ :: r => i == j && disciplined Phase.inside r
  | _, _ => false

/-- The amount the remaining actions will still add to cell `j`. -/
def pendingAt (j : Nat) : List Action → Int
  | [] => 0
  | Action.st i d :: r => (if i = j then d else 0) + pendingAt j r
  | _ :: r => pendingAt j r

/-- The amount all workers together will still add to cell `j`. -/
def pendingTotal (j : Nat) (threads : List Thread) : Int :=
  (threads.map (fun th => pendingAt j th.todo)).sum

/-- The phase agrees with the mutex (`held`: this worker holds it) and, after
a read, the register holds the current content of the cell. -/
def PhaseOK (ph : Phase) (held : Bool) (readings : List Int) (tmp : Int) : Prop :=
  match ph with
  | Phase.out => held = false
  | Phase.inside => held = true
  | Phase.loaded i => held = true ∧ readings[i]? = some tmp

/-- A worker in flight is consistent with the shared state. -/
def ThreadOK (held : Bool) (readings : List Int) (th : Thread) : Prop :=
  ∃ ph, disciplined ph th.todo = true ∧ PhaseOK ph held readings th.tmp

/-- The invariant of interleaved executions: every worker is consistent, at
most the holder of the mutex is inside a critical section, the cells hold
`int` values, and the content of cell `j` plus what is still pending for it is
the constant `base j` (modulo 2^32). -/
def Inv (base : Nat → Int) (c : Config) : Prop :=
  (∀ t th, c.threads[t]? = some th →
    ThreadOK (decide (c.st.sensor.lock = some t)) c.st.sensor.readings th) ∧
  (∀ v ∈ c.st.sensor.readings, InRange v) ∧
  (∀ j v, c.st.sensor.readings[j]? = some v → wrap32 (v + pendingTotal j c.threads) = base j)

/-- Every cell the remaining actions touch lies inside a block of `len` cells. -/
def bounded (len : Nat) : List Action → Bool
  | [] => true
  | Action.ld i :: r => decide (i < len) && bounded len r
  | Action.st i _ :: r => decide (i < len) && bounded len r
  | _ :: r => bounded len r

/-- The number of actions the workers have still to perform. -/
def remaining (c : Config) : Nat := (c.threads.map (fun th => th.todo.length)).sum

/-! ## Predicates on traces and the stated mean -/

/-- The event, if it is an access to `readings[i]`, has `0 <= i < count`. -/
def inBounds (count : Int) : Event → Bool
  | Event.rd i => decide ((i : Int) < count)
  | Event.wr i => decide ((i : Int) < count)
  | _ => true

/-- Every access of the trace happens while the mutex is held (`held` tells
whether it is held before the first event), no `acquire` happens while it is
held, and the trace ends with the mutex released. -/
def guarded : Bool → List Event → Bool
  | held, [] => !held
  | held, Event.acquire _ :: r => !held && guarded true r
  | held, Event.release _ :: r => held && guarded false r
  | held, Event.rd _ :: r => held && guarded held r
  | held, Event.wr _ :: r => held && guarded held r
  | held, Event.nap :: r => guarded held r

/-- The arithmetic mean as the specification words it: the sum of all
samples, with no wrap-around, divided by `count` as a real-valued quotient. -/
def exactMean (s : SensorData) : ℚ := (s.readings.sum : ℚ) / (s.count : ℚ)


/-! ## `src/sensor.c`: creation -/

/-- The creation loop of `src/sensor.c` from index `i` for `k` iterations.  A
write outside the block is a fault: the run stops there, and the result keeps
the state reached, with the faulting write recorded in the trace, next to the
fault. -/
def Src.init_loop (rand : Nat → Int) : Nat → Nat → State → State × Option Fault
  | _, 0, st => (st, none)
  | i, k + 1, st =>
    match store i (Int.tmod (rand i) 100) st with
    | .ok st' => Src.init_loop rand (i + 1) k st'
    | .error e => ({ st with trace := st.trace ++ [Event.wr i] }, some e)

/-- The function `init_sensor` of `src/sensor.c`.  The loop test is
`i <= count`, which admits the `count + 1` iterations `0 .. count` (none for
`count < 0`; for `count = INT_MAX` the test cannot fail, but the run has
stopped at index `count` by then).  The mutex is not initialised: `lock0` is
whatever the allocated structure holds. -/
def Src.init_sensor (count : Int) (rand : Nat → Int) (lock0 : Option Nat) :
    State × Option Fault :=
  Src.init_loop rand 0 (count + 1).toNat
    { sensor := { readings := malloc_ints count, count := count, lock := lock0 },
      trace := [] }

/-! ## `compute_average`: the accumulator -/

/-- The accumulation loop of `compute_average` cut after `k` iterations: the
value of the `int` variable `sum` and the state at that point. -/
def accumulate (k : Nat) (st : State) : Except Fault (Int × State) :=
  forLoop
    (fun i (acc : Int × State) =>
      match load i acc.2 with
      | .ok (v, st') => .ok (wrap32 (acc.1 + v), st')
      | .error e => .error e)
    0 k (0, st)

/-! ## `Solution/utils.c` -/

/-- The block returned by `calloc(1, n)`: `n` bytes, all zero (the allocation
is taken to succeed).  A byte is the natural number it holds. -/
def calloc_bytes (n : Nat) : List Nat := List.replicate n 0

/-- The libc call `fread(buffer, 1, n, f)` on a file just opened, of content
`file`, read without error: the first `min n (length file)` bytes of the file
are copied to the start of the buffer and the rest of the buffer is left as it
was.  A request larger than the buffer is the fault `outOfBounds`. -/
def fread (buffer : List Nat) (n : Nat) (file : List Nat) : Except Fault (List Nat) :=
  if n ≤ buffer.length then .ok (file.take n ++ buffer.drop (min n file.length))
  else .error (Fault.outOfBounds buffer.length)

/-- Bounds-checked write `buffer[i] = v` of a byte. -/
def poke (buffer : List Nat) (i : Nat) (v : Nat) : Except Fault (List Nat) :=
  if i < buffer.length then .ok (buffer.set i v) else .error (Fault.outOfBounds i)

/-- The function `read_file` of `Solution/utils.c`.  The argument is what
`fopen` finds at `path`: `none` when the file cannot be opened, its content
otherwise.  The result `none` is the `NULL` pointer, `some buffer` the block
the function returns. -/
def read_file (file : Option (List Nat)) : Except Fault (Option (List Nat)) :=
  match file with
  | none => .ok none
  | some content =>
    match fread (calloc_bytes 256) 255 content with
    | .ok buffer =>
      match poke buffer 255 0 with
      | .ok buffer' => .ok (some buffer')
      | .error e => .error e
    | .error e => .error e

/-! ## Machine integer lemmas -/

theorem wrap32_inRange (x : Int) : InRange (wrap32 x) := by
  unfold InRange wrap32 INT_MIN INT_MAX; omega

theorem wrap32_of_inRange {x : Int} (h : InRange x) : wrap32 x = x := by
  unfold InRange INT_MIN INT_MAX at h; unfold wrap32; omega

theorem wrap32_add_left (a b : Int) : wrap32 (wrap32 a + b) = wrap32 (a + b) := by
  unfold wrap32; omega

theorem wrap32_add_right (a b : Int) : wrap32 (a + wrap32 b) = wrap32 (a + b) := by
  unfold wrap32; omega

/-! ## Memory access lemmas -/

theorem store_ok {i : Nat} {st : State} (h : i < st.sensor.readings.length) (v : Int) :
    store i v st = .ok { sensor := { st.sensor with readings := st.sensor.readings.set i v },
                         trace := st.trace ++ [Event.wr i] } := by
  simp [store, h]

theorem load_ok {i : Nat} {st : State} {v : Int} (h : st.sensor.readings[i]? = some v) :
    load i st = .ok (v, { st with trace := st.trace ++ [Event.rd i] }) := by
  simp [load, h]

/-- The creation loop from index `i` for `k` iterations inside the block. -/
theorem init_loop (rand : Nat → Int) : ∀ (k i : Nat) (st : State),
    i + k ≤ st.sensor.readings.length →
    ∃ st', forLoop (fun i st => store i (Int.tmod (rand i) 100) st) i k st = .ok st' ∧
      st'.sensor.count = st.sensor.count ∧ st'.sensor.lock = st.sensor.lock ∧
      st'.sensor.readings.length = st.sensor.readings.length ∧
      (∀ j, st'.sensor.readings[j]? =
        if i ≤ j ∧ j < i + k then some (Int.tmod (rand j) 100) else st.sensor.readings[j]?) ∧
      st'.trace = st.trace ++ (List.range' i k).map Event.wr := by
  intro k
  induction k with
  | zero =>
    intro i st _
    refine ⟨st, rfl, rfl, rfl, rfl, ?_, by simp⟩
    intro j
    have : ¬ (i ≤ j ∧ j < i + 0) := by omega
    rw [if_neg this]
  | succ k ih =>
    intro i st h
    have hi : i < st.sensor.readings.length := by omega
    obtain ⟨st', hrun, hc, hl, hlen, hget, htr⟩ :=
      ih (i + 1) { sensor := { st.sensor with
                      readings := st.sensor.readings.set i (Int.tmod (rand i) 100) },
                   trace := st.trace ++ [Event.wr i] } (by simp; omega)
    refine ⟨st', ?_, hc, hl, by simpa using hlen, ?_, ?_⟩
    · simp only [forLoop, store_ok hi]
      exact hrun
    · intro j
      rw [hget j]
      by_cases hj : i = j
      · subst hj
        have h1 : ¬ (i + 1 ≤ i ∧ i < i + 1 + k) := by omega
        have h2 : i ≤ i ∧ i < i + (k + 1) := by omega
        simp [h1, h2, hi]
      · by_cases hj2 : i + 1 ≤ j ∧ j < i + 1 + k
        · have h2 : i ≤ j ∧ j < i + (k + 1) := by omega
          simp [hj2, h2]
        · have h2 : ¬ (i ≤ j ∧ j < i + (k + 1)) := by omega
          simp [hj2, h2, List.getElem?_set_ne hj]
    · rw [htr]
      simp [List.range'_succ]

/-- Closed form of `init_sensor`: it returns the block of the `count` values
`rand i % 100`, after writing the cells `0 .. count - 1` in that order. -/
theorem init_sensor_eq (count : Int) (rand : Nat → Int) :
    init_sensor count rand = .ok
      { sensor := { readings := (List.range count.toNat).map (fun i => Int.tmod (rand i) 100),
                    count := count, lock := none },
        trace := (List.range count.toNat).map Event.wr } := by
  obtain ⟨st', hrun, hc, hl, hlen, hget, htr⟩ :=
    init_loop rand count.toNat 0
      { sensor := { readings := malloc_ints count, count := count, lock := none }, trace := [] }
      (by simp [malloc_ints])
  unfold init_sensor
  rw [hrun]
  obtain ⟨⟨r, c, l⟩, t⟩ := st'
  simp only at hc hl hlen hget htr
  have hr : r = (List.range count.toNat).map (fun i => Int.tmod (rand i) 100) := by
    apply List.ext_getElem?
    intro j
    rw [hget j]
    by_cases hj : j < count.toNat
    · have h0 : 0 ≤ j ∧ j < 0 + count.toNat := by omega
      rw [if_pos h0]
      simp [List.getElem?_range hj]
    · have h0 : ¬ (0 ≤ j ∧ j < 0 + count.toNat) := by omega
      rw [if_neg h0]
      have h1 : (malloc_ints count)[j]? = none := by
        apply List.getElem?_eq_none
        simp [malloc_ints]; omega
      have h2 : (List.map (fun i => Int.tmod (rand i) 100) (List.range count.toNat))[j]? = none := by
        apply List.getElem?_eq_none
        simp; omega
      rw [h1, h2]
  simp only [Except.ok.injEq, State.mk.injEq, SensorData.mk.injEq]
  exact ⟨⟨hr, hc, hl⟩, by simp [htr, List.range_eq_range']⟩

/-! ## Sequential run of a worker -/

theorem runThread_append (tid : Nat) : ∀ (as bs : List Action) (tmp : Int) (st : State),
    runThread tid (as ++ bs) tmp st =
      match runThread tid as tmp st with
      | .ok (tmp', st') => runThread tid bs tmp' st'
      | .error e => .error e := by
  intro as
  induction as with
  | nil => intro bs tmp st; rfl
  | cons a as ih =>
    intro bs tmp st
    simp only [List.cons_append, runThread]
    cases h : exec tid a tmp st with
    | error e => rfl
    | ok p => obtain ⟨tmp', st'⟩ := p; simp only []; exact ih bs tmp' st'

/-- The loop of `+= 5` of the batch worker, from index `i` for `k` iterations
inside the block. -/
theorem rmw_loop (tid : Nat) : ∀ (k i : Nat) (tmp : Int) (st : State),
    i + k ≤ st.sensor.readings.length →
    ∃ tmp' st', runThread tid (loopActions (fun i => [Action.ld i, Action.st i 5]) i k) tmp st
        = .ok (tmp', st') ∧
      st'.sensor.count = st.sensor.count ∧ st'.sensor.lock = st.sensor.lock ∧
      (∀ j, st'.sensor.readings[j]? =
        if i ≤ j ∧ j < i + k then st.sensor.readings[j]?.map (fun v => wrap32 (v + 5))
        else st.sensor.readings[j]?) ∧
      st'.trace = st.trace ++ rmwEvents i k := by
  intro k
  induction k with
  | zero =>
    intro i tmp st _
    refine ⟨tmp, st, rfl, rfl, rfl, ?_, by simp [rmwEvents]⟩
    intro j
    have : ¬ (i ≤ j ∧ j < i + 0) := by omega
    rw [if_neg this]
  | succ k ih =>
    intro i tmp st h
    have hi : i < st.sensor.readings.length := by omega
    obtain ⟨v, hv⟩ : ∃ v, st.sensor.readings[i]? = some v :=
      ⟨st.sensor.readings[i], List.getElem?_eq_getElem hi⟩
    obtain ⟨tmp', st', hrun, hc, hl, hget, htr⟩ :=
      ih (i + 1) v
        { sensor := { st.sensor with readings := st.sensor.readings.set i (wrap32 (v + 5)) },
          trace := st.trace ++ [Event.rd i] ++ [Event.wr i] } (by simp; omega)
    refine ⟨tmp', st', ?_, hc, hl, ?_, ?_⟩
    · have hst : store i (wrap32 (v + 5)) { st with trace := st.trace ++ [Event.rd i] } =
          .ok { sensor := { st.sensor with readings := st.sensor.readings.set i (wrap32 (v + 5)) },
                trace := st.trace ++ [Event.rd i] ++ [Event.wr i] } :=
        @store_ok i { st with trace := st.trace ++ [Event.rd i] } hi _
      simp only [loopActions, List.cons_append, List.nil_append, runThread, exec, load_ok hv, hst]
      exact hrun
    · intro j
      rw [hget j]
      by_cases hj : i = j
      · subst hj
        have h1 : ¬ (i + 1 ≤ i ∧ i < i + 1 + k) := by omega
        have h2 : i ≤ i ∧ i < i + (k + 1) := by omega
        rw [if_neg h1, if_pos h2]
        simp [hi, hv]
      · by_cases hj2 : i + 1 ≤ j ∧ j < i + 1 + k
        · have h2 : i ≤ j ∧ j < i + (k + 1) := by omega
          rw [if_pos hj2, if_pos h2]
          simp [List.getElem?_set_ne hj]
        · have h2 : ¬ (i ≤ j ∧ j < i + (k + 1)) := by omega
          rw [if_neg hj2, if_neg h2]
          simp [List.getElem?_set_ne hj]
    · rw [htr]
      simp [rmwEvents]

/-- Closed form of one pass of the batch worker on a buffer whose block has
`count` cells and whose mutex is free. -/
theorem pass_eq (tid : Nat) (st : State)
    (hlen : st.sensor.readings.length = st.sensor.count.toNat) (hlock : st.sensor.lock = none) :
    pass tid st = .ok
      { sensor := { readings := st.sensor.readings.map (fun v => wrap32 (v + 5)),
                    count := st.sensor.count, lock := none },
        trace := st.trace ++ passEvents st.sensor.count tid } := by
  obtain ⟨tmp', st', hrun, hc, hl, hget, htr⟩ :=
    rmw_loop tid st.sensor.count.toNat 0 0
      { sensor := { st.sensor with lock := some tid }, trace := st.trace ++ [Event.acquire tid] }
      (by simp [hlen])
  obtain ⟨⟨r, c, l⟩, t⟩ := st'
  simp only at hc hl hget htr
  have hr : r = st.sensor.readings.map (fun v => wrap32 (v + 5)) := by
    apply List.ext_getElem?
    intro j
    rw [hget j]
    by_cases hj : j < st.sensor.count.toNat
    · have h0 : 0 ≤ j ∧ j < 0 + st.sensor.count.toNat := by omega
      rw [if_pos h0]; simp
    · have h0 : ¬ (0 ≤ j ∧ j < 0 + st.sensor.count.toNat) := by omega
      rw [if_neg h0]
      have h1 : st.sensor.readings[j]? = none := by
        apply List.getElem?_eq_none; omega
      simp [h1]
  subst hr hc hl htr
  unfold pass sensor_thread
  rw [runThread_append, runThread_append]
  simp only [runThread, exec, hlock, if_true]
  rw [hrun]
  simp [runThread, exec, passEvents]
/-- Closed form of the passes of the workers `tids`, run one after the other,
on a buffer of `int` values whose block has `count` cells. -/
theorem passes_eq : ∀ (tids : List Nat) (st : State),
    st.sensor.readings.length = st.sensor.count.toNat → st.sensor.lock = none →
    (∀ v ∈ st.sensor.readings, InRange v) →
    passes tids st = .ok
      { sensor := { readings := st.sensor.readings.map (fun v => wrap32 (v + 5 * tids.length)),
                    count := st.sensor.count, lock := none },
        trace := st.trace ++ tids.flatMap (passEvents st.sensor.count) } := by
  intro tids
  induction tids with
  | nil =>
    intro st hlen hlock hr
    obtain ⟨⟨r, c, l⟩, t⟩ := st
    simp only at hlen hlock hr
    subst hlock
    have : r.map (fun v => wrap32 v) = r := by
      conv => rhs; rw [← List.map_id r]
      apply List.map_congr_left
      intro v hv
      simpa using wrap32_of_inRange (hr v hv)
    simp [passes, this]
  | cons t ts ih =>
    intro st hlen hlock hr
    simp only [passes, pass_eq t st hlen hlock]
    rw [ih _ (by simpa using hlen) rfl (by
      intro v hv
      simp only [List.mem_map] at hv
      obtain ⟨w, _, rfl⟩ := hv
      exact wrap32_inRange _)]
    simp only [Except.ok.injEq, State.mk.injEq, SensorData.mk.injEq, List.map_map,
      List.flatMap_cons, List.append_assoc, and_true, true_and]
    apply List.map_congr_left
    intro v _
    simp only [Function.comp, wrap32_add_left, List.length_cons]
    congr 1
    push_cast
    ring

/-- The accumulation loop of `compute_average` from index `i` for `k`
iterations inside the block. -/
theorem sum_loop : ∀ (k i : Nat) (acc : Int) (st : State),
    i + k ≤ st.sensor.readings.length → wrap32 acc = acc →
    forLoop
      (fun i (acc : Int × State) =>
        match load i acc.2 with
        | .ok (v, st') => .ok (wrap32 (acc.1 + v), st')
        | .error e => .error e)
      i k (acc, st) =
    .ok (wrap32 (acc + ((st.sensor.readings.drop i).take k).sum),
         { st with trace := st.trace ++ (List.range' i k).map Event.rd }) := by
  intro k
  induction k with
  | zero =>
    intro i acc st _ hacc
    simp [forLoop, hacc]
  | succ k ih =>
    intro i acc st h hacc
    have hi : i < st.sensor.readings.length := by omega
    have hv : st.sensor.readings[i]? = some st.sensor.readings[i] := List.getElem?_eq_getElem hi
    simp only [forLoop, load_ok hv]
    rw [ih (i + 1) _ _ (by simpa using (by omega : i + 1 + k ≤ st.sensor.readings.length))
      (wrap32_of_inRange (wrap32_inRange _))]
    have hd : st.sensor.readings.drop i = st.sensor.readings[i] :: st.sensor.readings.drop (i + 1) :=
      List.drop_eq_getElem_cons hi
    simp only [hd, List.take_succ_cons, List.sum_cons, wrap32_add_left, List.range'_succ,
      List.map_cons, List.append_assoc, List.singleton_append, Except.ok.injEq, Prod.mk.injEq,
      and_true]
    congr 1
    ring

/-- Closed form of `compute_average` on a buffer whose block has `count`
cells, `count` not 0: the truncated quotient of the wrapped sum. -/
theorem compute_average_eq (st : State)
    (hlen : st.sensor.readings.length = st.sensor.count.toNat) (hne : st.sensor.count ≠ 0) :
    compute_average st = .ok
      (Int.tdiv (wrap32 st.sensor.readings.sum) st.sensor.count,
       { st with trace := st.trace ++ (List.range st.sensor.count.toNat).map Event.rd }) := by
  have hov : ¬ (wrap32 st.sensor.readings.sum = INT_MIN ∧ st.sensor.count = -1) := by
    rintro ⟨h1, h2⟩
    rw [h2] at hlen
    have h3 : st.sensor.readings = [] := List.length_eq_zero.mp hlen
    rw [h3] at h1
    revert h1
    decide
  unfold compute_average
  rw [sum_loop _ 0 0 st (by omega) (by decide)]
  simp [int_div, hne, hov, ← hlen, List.range_eq_range']
/-! ## Interleaved execution: the invariant -/

theorem sum_map_set {α : Type} (f : α → Int) : ∀ (l : List α) (i : Nat) (a b : α),
    l[i]? = some a → ((l.set i b).map f).sum = (l.map f).sum - f a + f b := by
  intro l
  induction l with
  | nil => intro i a b h; simp at h
  | cons x xs ih =>
    intro i a b h
    cases i with
    | zero =>
      simp only [List.getElem?_cons_zero, Option.some.injEq] at h
      subst h
      simp only [List.set_cons_zero, List.map_cons, List.sum_cons]
      ring
    | succ i =>
      simp only [List.getElem?_cons_succ] at h
      simp only [List.set_cons_succ, List.map_cons, List.sum_cons, ih i a b h]
      ring

theorem pendingTotal_set (j : Nat) (threads : List Thread) (t : Nat) (th th' : Thread)
    (h : threads[t]? = some th) :
    pendingTotal j (threads.set t th') =
      pendingTotal j threads - pendingAt j th.todo + pendingAt j th'.todo :=
  sum_map_set (fun (x : Thread) => pendingAt j x.todo) threads t th th' h

/-- A worker outside the critical section stays consistent whatever happens to
the cells. -/
theorem threadOK_out {r r' : List Int} {th : Thread} (h : ThreadOK false r th) :
    ThreadOK false r' th := by
  obtain ⟨ph, hd, hp⟩ := h
  cases ph with
  | out => exact ⟨Phase.out, hd, hp⟩
  | inside => simp [PhaseOK] at hp
  | loaded i => simp [PhaseOK] at hp

/-- The threads other than `t` after `t` has stepped. -/
theorem getElem?_set_other {threads : List Thread} {t u : Nat} {x th : Thread}
    (hne : u ≠ t) (h : (threads.set t x)[u]? = some th) : threads[u]? = some th := by
  rwa [List.getElem?_set_ne (Ne.symm hne)] at h

theorem getElem?_set_same {threads : List Thread} {t : Nat} {x th : Thread}
    (h : (threads.set t x)[t]? = some th) : th = x := by
  rw [List.getElem?_set] at h
  simp only [if_true] at h
  split at h
  · exact (Option.some.inj h).symm
  · cases h
/-- Every enabled step of every thread preserves the invariant. -/
theorem step_inv {base : Nat → Int} {c c' : Config} {t : Nat}
    (hinv : Inv base c) (hstep : step t c = some c') : Inv base c' := by
  obtain ⟨hthr, hrange, hq⟩ := hinv
  unfold step at hstep
  cases hth : c.threads[t]? with
  | none => simp [hth] at hstep
  | some th =>
    obtain ⟨todo, tmp⟩ := th
    cases todo with
    | nil => simp [hth] at hstep
    | cons a rest =>
      simp only [hth] at hstep
      obtain ⟨ph, hd, hp⟩ := hthr t _ hth
      simp only at hd hp
      cases a with
      | lock =>
        by_cases hl : c.st.sensor.lock = none
        · simp only [exec, hl, if_true, Option.some.injEq] at hstep
          subst hstep
          refine ⟨?_, hrange, ?_⟩
          · intro u thu hu
            simp only at hu ⊢
            by_cases hut : u = t
            · subst hut
              have := getElem?_set_same hu
              subst this
              cases ph with
              | out => exact ⟨Phase.inside, by simpa [disciplined] using hd, by simp [PhaseOK]⟩
              | inside => simp [disciplined] at hd
              | loaded i => simp [disciplined] at hd
            · have hk := hthr u thu (getElem?_set_other hut hu)
              rw [hl] at hk
              have h1 : decide ((none : Option Nat) = some u) = false := by simp
              have h2 : decide (some t = some u) = false := by
                simp; exact fun h => hut h.symm
              rw [h1] at hk
              rw [h2]
              exact hk
          · intro j v hv
            simp only at hv ⊢
            rw [pendingTotal_set j _ t _ _ hth]
            simp only [pendingAt]
            have := hq j v hv
            rw [← this]; congr 1; ring
        · simp [exec, hl] at hstep
      | unlock =>
        by_cases hl : c.st.sensor.lock = some t
        · simp only [exec, hl, if_true, Option.some.injEq] at hstep
          subst hstep
          refine ⟨?_, hrange, ?_⟩
          · intro u thu hu
            simp only at hu ⊢
            have h1 : decide ((none : Option Nat) = some u) = false := by simp
            rw [h1]
            by_cases hut : u = t
            · subst hut
              have := getElem?_set_same hu
              subst this
              cases ph with
              | out => simp [disciplined] at hd
              | inside => exact ⟨Phase.out, by simpa [disciplined] using hd, by simp [PhaseOK]⟩
              | loaded i => simp [disciplined] at hd
            · have hk := hthr u thu (getElem?_set_other hut hu)
              rw [hl] at hk
              have h2 : decide (some t = some u) = false := by
                simp; exact fun h => hut h.symm
              rw [h2] at hk
              exact hk
          · intro j v hv
            simp only at hv ⊢
            rw [pendingTotal_set j _ t _ _ hth]
            simp only [pendingAt]
            have := hq j v hv
            rw [← this]; congr 1; ring
        · simp [exec, hl] at hstep
      | ld i =>
        cases hv : c.st.sensor.readings[i]? with
        | none => simp [exec, load, hv] at hstep
        | some v =>
          simp only [exec, load_ok hv, Option.some.injEq] at hstep
          subst hstep
          refine ⟨?_, hrange, ?_⟩
          · intro u thu hu
            simp only at hu ⊢
            by_cases hut : u = t
            · subst hut
              have := getElem?_set_same hu
              subst this
              cases ph with
              | out => simp [disciplined] at hd
              | inside =>
                refine ⟨Phase.loaded i, by simpa [disciplined] using hd, ?_⟩
                simp only [PhaseOK] at hp ⊢
                exact ⟨hp, hv⟩
              | loaded i => simp [disciplined] at hd
            · exact hthr u thu (getElem?_set_other hut hu)
          · intro j w hw
            simp only at hw ⊢
            rw [pendingTotal_set j _ t _ _ hth]
            simp only [pendingAt]
            have := hq j w hw
            rw [← this]; congr 1; ring
      | st i d =>
        cases ph with
        | out => simp [disciplined] at hd
        | inside => simp [disciplined] at hd
        | loaded i' =>
          simp only [disciplined, Bool.and_eq_true, beq_iff_eq] at hd
          obtain ⟨hii, hd⟩ := hd
          subst hii
          simp only [PhaseOK] at hp
          obtain ⟨hheld, htmp⟩ := hp
          have hlock : c.st.sensor.lock = some t := by simpa using hheld
          have hi : i' < c.st.sensor.readings.length := by
            by_contra hcon
            rw [List.getElem?_eq_none (by omega)] at htmp
            cases htmp
          simp only [exec, store_ok hi, Option.some.injEq] at hstep
          subst hstep
          refine ⟨?_, ?_, ?_⟩
          · intro u thu hu
            simp only at hu ⊢
            by_cases hut : u = t
            · subst hut
              have := getElem?_set_same hu
              subst this
              exact ⟨Phase.inside, hd, by simpa [PhaseOK] using hheld⟩
            · have hk := hthr u thu (getElem?_set_other hut hu)
              have h2 : decide (c.st.sensor.lock = some u) = false := by
                rw [hlock]; simp; exact fun h => hut h.symm
              rw [h2] at hk ⊢
              exact threadOK_out hk
          · intro v hv
            simp only at hv
            rcases List.mem_or_eq_of_mem_set hv with h | h
            · exact hrange v h
            · rw [h]; exact wrap32_inRange _
          · intro j w hw
            simp only at hw ⊢
            rw [pendingTotal_set j _ t _ _ hth]
            simp only [pendingAt]
            by_cases hij : i' = j
            · subst hij
              rw [List.getElem?_set_self hi] at hw
              cases hw
              rw [wrap32_add_left, ← hq i' tmp htmp]
              congr 1
              simp only [if_true]
              ring
            · rw [List.getElem?_set_ne hij] at hw
              rw [← hq j w hw]
              congr 1
              simp only [if_neg hij]
              ring
      | sleep us =>
        simp only [exec, Option.some.injEq] at hstep
        subst hstep
        refine ⟨?_, hrange, ?_⟩
        · intro u thu hu
          simp only at hu ⊢
          by_cases hut : u = t
          · subst hut
            have := getElem?_set_same hu
            subst this
            cases ph with
            | out => exact ⟨Phase.out, by simpa [disciplined] using hd, hp⟩
            | inside => simp [disciplined] at hd
            | loaded i => simp [disciplined] at hd
          · exact hthr u thu (getElem?_set_other hut hu)
        · intro j w hw
          simp only at hw ⊢
          rw [pendingTotal_set j _ t _ _ hth]
          simp only [pendingAt]
          have := hq j w hw
          rw [← this]; congr 1; ring
/-- A step changes neither `count`, nor the size of the block, nor the number
of workers. -/
theorem step_frame {c c' : Config} {t : Nat} (hstep : step t c = some c') :
    c'.st.sensor.count = c.st.sensor.count ∧
    c'.st.sensor.readings.length = c.st.sensor.readings.length ∧
    c'.threads.length = c.threads.length := by
  unfold step at hstep
  cases hth : c.threads[t]? with
  | none => simp [hth] at hstep
  | some th =>
    obtain ⟨todo, tmp⟩ := th
    cases todo with
    | nil => simp [hth] at hstep
    | cons a rest =>
      simp only [hth] at hstep
      cases a with
      | lock =>
        by_cases hl : c.st.sensor.lock = none
        · simp only [exec, hl, if_true, Option.some.injEq] at hstep
          subst hstep; simp
        · simp [exec, hl] at hstep
      | unlock =>
        by_cases hl : c.st.sensor.lock = some t
        · simp only [exec, hl, if_true, Option.some.injEq] at hstep
          subst hstep; simp
        · simp [exec, hl] at hstep
      | ld i =>
        cases hv : c.st.sensor.readings[i]? with
        | none => simp [exec, load, hv] at hstep
        | some v =>
          simp only [exec, load_ok hv, Option.some.injEq] at hstep
          subst hstep; simp
      | st i d =>
        by_cases hi : i < c.st.sensor.readings.length
        · simp only [exec, store_ok hi, Option.some.injEq] at hstep
          subst hstep; simp
        · simp [exec, store, hi] at hstep
      | sleep us =>
        simp only [exec, Option.some.injEq] at hstep
        subst hstep; simp

/-- The mutex is held by an existing worker or by none. -/
theorem step_lock {c c' : Config} {t : Nat} (hstep : step t c = some c')
    (h : ∀ u, c.st.sensor.lock = some u → u < c.threads.length) :
    ∀ u, c'.st.sensor.lock = some u → u < c'.threads.length := by
  unfold step at hstep
  cases hth : c.threads[t]? with
  | none => simp [hth] at hstep
  | some th =>
    have ht : t < c.threads.length := by
      by_contra hcon
      rw [List.getElem?_eq_none (by omega)] at hth
      cases hth
    obtain ⟨todo, tmp⟩ := th
    cases todo with
    | nil => simp [hth] at hstep
    | cons a rest =>
      simp only [hth] at hstep
      cases a with
      | lock =>
        by_cases hl : c.st.sensor.lock = none
        · simp only [exec, hl, if_true, Option.some.injEq] at hstep
          subst hstep
          intro u hu
          simp only [Option.some.injEq] at hu
          subst hu
          simpa using ht
        · simp [exec, hl] at hstep
      | unlock =>
        by_cases hl : c.st.sensor.lock = some t
        · simp only [exec, hl, if_true, Option.some.injEq] at hstep
          subst hstep
          intro u hu
          simp at hu
        · simp [exec, hl] at hstep
      | ld i =>
        cases hv : c.st.sensor.readings[i]? with
        | none => simp [exec, load, hv] at hstep
        | some v =>
          simp only [exec, load_ok hv, Option.some.injEq] at hstep
          subst hstep
          intro u hu
          simpa using h u hu
      | st i d =>
        by_cases hi : i < c.st.sensor.readings.length
        · simp only [exec, store_ok hi, Option.some.injEq] at hstep
          subst hstep
          intro u hu
          simpa using h u hu
        · simp [exec, store, hi] at hstep
      | sleep us =>
        simp only [exec, Option.some.injEq] at hstep
        subst hstep
        intro u hu
        simpa using h u hu

/-- Facts that hold along every execution that follows a schedule. -/
theorem runSched_inv {base : Nat → Int} : ∀ (sched : List Nat) (c c' : Config),
    Inv base c → (∀ u, c.st.sensor.lock = some u → u < c.threads.length) →
    runSched sched c = some c' →
    Inv base c' ∧ (∀ u, c'.st.sensor.lock = some u → u < c'.threads.length) ∧
    c'.st.sensor.count = c.st.sensor.count ∧
    c'.st.sensor.readings.length = c.st.sensor.readings.length := by
  intro sched
  induction sched with
  | nil =>
    intro c c' hinv hl hrun
    simp only [runSched, Option.some.injEq] at hrun
    subst hrun
    exact ⟨hinv, hl, rfl, rfl⟩
  | cons t ts ih =>
    intro c c' hinv hl hrun
    simp only [runSched] at hrun
    cases hs : step t c with
    | none => simp [hs] at hrun
    | some c1 =>
      simp only [hs] at hrun
      obtain ⟨h1, h2, h3, h4⟩ := ih c1 c' (step_inv hinv hs) (step_lock hs hl) hrun
      obtain ⟨f1, f2, _⟩ := step_frame hs
      exact ⟨h1, h2, by rw [h3, f1], by rw [h4, f2]⟩

theorem pendingTotal_replicate (j n : Nat) (th : Thread) :
    pendingTotal j (List.replicate n th) = n * pendingAt j th.todo := by
  simp [pendingTotal, List.map_replicate, List.sum_replicate]

theorem pendingTotal_done (j : Nat) : ∀ (threads : List Thread),
    threads.all (fun th => th.todo.isEmpty) = true → pendingTotal j threads = 0 := by
  intro threads
  induction threads with
  | nil => intro _; rfl
  | cons th ths ih =>
    intro h
    simp only [List.all_cons, Bool.and_eq_true, List.isEmpty_iff] at h
    have := ih h.2
    simp only [pendingTotal] at this ⊢
    simp [h.1, pendingAt, this]

/-- The invariant holds when the workers are created. -/
theorem spawn_inv (n : Nat) (prog : List Action) (st : State)
    (hd : disciplined Phase.out prog = true) (hlock : st.sensor.lock = none)
    (hrange : ∀ v ∈ st.sensor.readings, InRange v) :
    Inv (fun j => wrap32 (st.sensor.readings.getD j 0 + n * pendingAt j prog))
      (spawn n prog st) := by
  refine ⟨?_, hrange, ?_⟩
  · intro t th hth
    simp only [spawn] at hth ⊢
    rw [List.getElem?_replicate] at hth
    split at hth
    · cases hth
      exact ⟨Phase.out, hd, by simp [PhaseOK, hlock]⟩
    · cases hth
  · intro j v hv
    simp only [spawn] at hv ⊢
    rw [pendingTotal_replicate]
    simp [List.getD, hv]

/-- General result for `n` workers that all run the disciplined program
`prog`: whatever the schedule, once every worker has finished, cell `j` holds
its original content plus `n` times what one worker adds to it (as an `int`),
`count` is unchanged and the mutex is free. -/
theorem interleaving_result (n : Nat) (prog : List Action) (st : State)
    (hd : disciplined Phase.out prog = true) (hlock : st.sensor.lock = none)
    (hrange : ∀ v ∈ st.sensor.readings, InRange v)
    (sched : List Nat) (c : Config)
    (hrun : runSched sched (spawn n prog st) = some c) (hdone : allDone c = true) :
    (∀ j, c.st.sensor.readings[j]? =
      st.sensor.readings[j]?.map (fun v => wrap32 (v + n * pendingAt j prog))) ∧
    c.st.sensor.count = st.sensor.count ∧ c.st.sensor.lock = none := by
  obtain ⟨⟨hthr, _, hq⟩, hl, hc, hlen⟩ :=
    runSched_inv sched _ c (spawn_inv n prog st hd hlock hrange)
      (by intro u hu; simp [spawn, hlock] at hu) hrun
  have hr := (runSched_inv sched _ c (spawn_inv n prog st hd hlock hrange)
      (by intro u hu; simp [spawn, hlock] at hu) hrun).1.2.1
  refine ⟨?_, hc, ?_⟩
  · intro j
    simp only [spawn] at hlen
    cases hj : c.st.sensor.readings[j]? with
    | none =>
      have : st.sensor.readings[j]? = none := by
        rw [List.getElem?_eq_none_iff] at hj ⊢
        omega
      simp [this]
    | some v =>
      have hjl : j < st.sensor.readings.length := by
        rw [← hlen]
        by_contra hcon
        rw [List.getElem?_eq_none (by omega)] at hj
        cases hj
      have h0 := hq j v hj
      rw [pendingTotal_done j _ hdone] at h0
      simp only [add_zero] at h0
      rw [wrap32_of_inRange (hr v (List.getElem?_mem hj))] at h0
      rw [h0, List.getElem?_eq_getElem hjl]
      simp [List.getD, List.getElem?_eq_getElem hjl]
  · cases hlk : c.st.sensor.lock with
    | none => rfl
    | some u =>
      exfalso
      have hu := hl u hlk
      have hth := hthr u c.threads[u] (List.getElem?_eq_getElem hu)
      have hempty : (c.threads[u]).todo = [] := by
        have := List.all_eq_true.mp hdone (c.threads[u]) (List.getElem_mem hu)
        simpa using this
      obtain ⟨ph, hdp, hp⟩ := hth
      rw [hempty] at hdp
      cases ph with
      | out => simp [PhaseOK, hlk] at hp
      | inside => simp [disciplined] at hdp
      | loaded i => simp [disciplined] at hdp
/-! ## The two worker programs -/

theorem pendingAt_append (j : Nat) : ∀ (as bs : List Action),
    pendingAt j (as ++ bs) = pendingAt j as + pendingAt j bs := by
  intro as
  induction as with
  | nil => intro bs; simp [pendingAt]
  | cons a as ih =>
    intro bs
    cases a <;> simp [pendingAt, ih, add_assoc]

theorem pendingAt_batch_loop (j : Nat) : ∀ (k i : Nat),
    pendingAt j (loopActions (fun i => [Action.ld i, Action.st i 5]) i k) =
      if i ≤ j ∧ j < i + k then 5 else 0 := by
  intro k
  induction k with
  | zero =>
    intro i
    have : ¬ (i ≤ j ∧ j < i + 0) := by omega
    rw [if_neg this]; rfl
  | succ k ih =>
    intro i
    rw [loopActions, pendingAt_append, ih (i + 1)]
    simp only [pendingAt]
    by_cases hij : i = j
    · subst hij
      have h1 : ¬ (i + 1 ≤ i ∧ i < i + 1 + k) := by omega
      have h2 : i ≤ i ∧ i < i + (k + 1) := by omega
      simp [h1, h2]
    · by_cases h1 : i + 1 ≤ j ∧ j < i + 1 + k
      · have h2 : i ≤ j ∧ j < i + (k + 1) := by omega
        simp [h1, h2, hij]
      · have h2 : ¬ (i ≤ j ∧ j < i + (k + 1)) := by omega
        simp [h1, h2, hij]

theorem pendingAt_elem_loop (j : Nat) : ∀ (k i : Nat),
    pendingAt j (loopActions
      (fun i => [Action.lock, Action.ld i, Action.st i 5, Action.unlock, Action.sleep 5000]) i k) =
      if i ≤ j ∧ j < i + k then 5 else 0 := by
  intro k
  induction k with
  | zero =>
    intro i
    have : ¬ (i ≤ j ∧ j < i + 0) := by omega
    rw [if_neg this]; rfl
  | succ k ih =>
    intro i
    rw [loopActions, pendingAt_append, ih (i + 1)]
    simp only [pendingAt]
    by_cases hij : i = j
    · subst hij
      have h1 : ¬ (i + 1 ≤ i ∧ i < i + 1 + k) := by omega
      have h2 : i ≤ i ∧ i < i + (k + 1) := by omega
      simp [h1, h2]
    · by_cases h1 : i + 1 ≤ j ∧ j < i + 1 + k
      · have h2 : i ≤ j ∧ j < i + (k + 1) := by omega
        simp [h1, h2, hij]
      · have h2 : ¬ (i ≤ j ∧ j < i + (k + 1)) := by omega
        simp [h1, h2, hij]

/-- What one batch worker adds to cell `j`. -/
theorem pendingAt_sensor_thread (count : Int) (j : Nat) :
    pendingAt j (sensor_thread count) = if j < count.toNat then 5 else 0 := by
  unfold sensor_thread
  rw [pendingAt_append, pendingAt_append, pendingAt_batch_loop]
  by_cases h : j < count.toNat
  · have h2 : 0 ≤ j ∧ j < 0 + count.toNat := by omega
    simp [pendingAt, h, h2]
  · have h2 : ¬ (0 ≤ j ∧ j < 0 + count.toNat) := by omega
    simp [pendingAt, h, h2]

/-- What one per-element worker adds to cell `j`. -/
theorem pendingAt_src_sensor_thread (count : Int) (j : Nat) :
    pendingAt j (Src.sensor_thread count) = if j < count.toNat then 5 else 0 := by
  unfold Src.sensor_thread
  rw [pendingAt_elem_loop]
  by_cases h : j < count.toNat
  · have h2 : 0 ≤ j ∧ j < 0 + count.toNat := by omega
    simp [h, h2]
  · have h2 : ¬ (0 ≤ j ∧ j < 0 + count.toNat) := by omega
    simp [h, h2]

theorem disciplined_batch_loop (rest : List Action) : ∀ (k i : Nat),
    disciplined Phase.inside (loopActions (fun i => [Action.ld i, Action.st i 5]) i k ++ rest) =
      disciplined Phase.inside rest := by
  intro k
  induction k with
  | zero => intro i; rfl
  | succ k ih =>
    intro i
    simp [loopActions, disciplined, ih (i + 1)]

theorem disciplined_elem_loop : ∀ (k i : Nat),
    disciplined Phase.out (loopActions
      (fun i => [Action.lock, Action.ld i, Action.st i 5, Action.unlock, Action.sleep 5000]) i k)
      = true := by
  intro k
  induction k with
  | zero => intro i; rfl
  | succ k ih =>
    intro i
    simp [loopActions, disciplined, ih (i + 1)]

/-- The batch worker follows the lock discipline. -/
theorem disciplined_sensor_thread (count : Int) :
    disciplined Phase.out (sensor_thread count) = true := by
  unfold sensor_thread
  simp [disciplined, disciplined_batch_loop]

/-- The per-element worker follows the lock discipline. -/
theorem disciplined_src_sensor_thread (count : Int) :
    disciplined Phase.out (Src.sensor_thread count) = true :=
  disciplined_elem_loop _ _

/-- From cell-wise to list-wise: `n` workers that each add 5 to every cell. -/
theorem readings_of_cells {r r0 : List Int} {n : Nat} {k : Nat} (hk : r0.length = k)
    (h : ∀ j, r[j]? = r0[j]?.map (fun v => wrap32 (v + n * (if j < k then 5 else 0)))) :
    r = r0.map (fun v => wrap32 (v + 5 * n)) := by
  apply List.ext_getElem?
  intro j
  rw [h j, List.getElem?_map]
  by_cases hj : j < k
  · simp only [if_pos hj]
    cases r0[j]? with
    | none => rfl
    | some v => simp only [Option.map_some']; congr 2; ring
  · have : r0[j]? = none := List.getElem?_eq_none (by omega)
    simp [this]

/-- Batch workers, any schedule: the final samples. -/
theorem batch_interleaving (n : Nat) (st : State)
    (hlen : st.sensor.readings.length = st.sensor.count.toNat) (hlock : st.sensor.lock = none)
    (hrange : ∀ v ∈ st.sensor.readings, InRange v) (sched : List Nat) (c : Config)
    (hrun : runSched sched (spawn n (sensor_thread st.sensor.count) st) = some c)
    (hdone : allDone c = true) :
    c.st.sensor.readings = st.sensor.readings.map (fun v => wrap32 (v + 5 * n)) ∧
    c.st.sensor.count = st.sensor.count ∧ c.st.sensor.lock = none := by
  obtain ⟨h1, h2, h3⟩ := interleaving_result n _ st (disciplined_sensor_thread _) hlock hrange
    sched c hrun hdone
  refine ⟨readings_of_cells hlen ?_, h2, h3⟩
  intro j
  rw [h1 j, pendingAt_sensor_thread]

/-- Per-element workers, any schedule: the final samples. -/
theorem elem_interleaving (n : Nat) (st : State)
    (hlen : st.sensor.readings.length = st.sensor.count.toNat) (hlock : st.sensor.lock = none)
    (hrange : ∀ v ∈ st.sensor.readings, InRange v) (sched : List Nat) (c : Config)
    (hrun : runSched sched (spawn n (Src.sensor_thread st.sensor.count) st) = some c)
    (hdone : allDone c = true) :
    c.st.sensor.readings = st.sensor.readings.map (fun v => wrap32 (v + 5 * n)) ∧
    c.st.sensor.count = st.sensor.count ∧ c.st.sensor.lock = none := by
  obtain ⟨h1, h2, h3⟩ := interleaving_result n _ st (disciplined_src_sensor_thread _) hlock
    hrange sched c hrun hdone
  refine ⟨readings_of_cells hlen ?_, h2, h3⟩
  intro j
  rw [h1 j, pendingAt_src_sensor_thread]
/-! ## Interleaved execution: progress -/

theorem sum_map_set_nat {α : Type} (f : α → Nat) : ∀ (l : List α) (i : Nat) (a b : α),
    l[i]? = some a → ((l.set i b).map f).sum + f a = (l.map f).sum + f b := by
  intro l
  induction l with
  | nil => intro i a b h; simp at h
  | cons x xs ih =>
    intro i a b h
    cases i with
    | zero =>
      simp only [List.getElem?_cons_zero, Option.some.injEq] at h
      subst h
      simp only [List.set_cons_zero, List.map_cons, List.sum_cons]
      omega
    | succ i =>
      simp only [List.getElem?_cons_succ] at h
      have := ih i a b h
      simp only [List.set_cons_succ, List.map_cons, List.sum_cons]
      omega

/-- The shape of an enabled step: the thread's next action executes. -/
theorem step_eq_some {c : Config} {t : Nat} {a : Action} {rest : List Action} {tmp tmp' : Int}
    {st' : State} (hth : c.threads[t]? = some ⟨a :: rest, tmp⟩)
    (hex : exec t a tmp c.st = .ok (tmp', st')) :
    step t c = some { st := st', threads := c.threads.set t ⟨rest, tmp'⟩ } := by
  simp [step, hth, hex]

/-- Conversely, a step is the execution of the next action of the thread. -/
theorem step_cases {c c' : Config} {t : Nat} (hstep : step t c = some c') :
    ∃ a rest tmp tmp' st', c.threads[t]? = some ⟨a :: rest, tmp⟩ ∧
      exec t a tmp c.st = .ok (tmp', st') ∧
      c' = { st := st', threads := c.threads.set t ⟨rest, tmp'⟩ } := by
  unfold step at hstep
  cases hth : c.threads[t]? with
  | none => simp [hth] at hstep
  | some th =>
    obtain ⟨todo, tmp⟩ := th
    cases todo with
    | nil => simp [hth] at hstep
    | cons a rest =>
      simp only [hth] at hstep
      cases hex : exec t a tmp c.st with
      | error e => simp [hex] at hstep
      | ok p =>
        obtain ⟨tmp', st'⟩ := p
        simp only [hex, Option.some.injEq] at hstep
        exact ⟨a, rest, tmp, tmp', st', rfl, hex, hstep.symm⟩

/-- Each step performs exactly one action. -/
theorem step_remaining {c c' : Config} {t : Nat} (hstep : step t c = some c') :
    remaining c' + 1 = remaining c := by
  obtain ⟨a, rest, tmp, tmp', st', hth, _, rfl⟩ := step_cases hstep
  have := sum_map_set_nat (fun (x : Thread) => x.todo.length) c.threads t _ ⟨rest, tmp'⟩ hth
  simp only [List.length_cons] at this
  simp only [remaining]
  omega

theorem bounded_tail {len : Nat} {a : Action} {rest : List Action}
    (h : bounded len (a :: rest) = true) : bounded len rest = true := by
  cases a <;> simp [bounded] at h <;> first | exact h | exact h.2

/-- Steps keep the remaining actions inside the block. -/
theorem step_bounded {c c' : Config} {t : Nat} (hstep : step t c = some c')
    (h : ∀ th ∈ c.threads, bounded c.st.sensor.readings.length th.todo = true) :
    ∀ th ∈ c'.threads, bounded c'.st.sensor.readings.length th.todo = true := by
  obtain ⟨_, hlen, _⟩ := step_frame hstep
  obtain ⟨a, rest, tmp, tmp', st', hth, _, rfl⟩ := step_cases hstep
  intro th hmem
  simp only at hlen hmem ⊢
  rw [hlen]
  rcases List.mem_or_eq_of_mem_set hmem with h1 | h1
  · exact h th h1
  · subst h1
    exact bounded_tail (h _ (List.getElem?_mem hth))

theorem exec_lock_ok {t : Nat} {tmp : Int} {st : State} (h : st.sensor.lock = none) :
    exec t Action.lock tmp st =
      .ok (tmp, { sensor := { st.sensor with lock := some t },
                  trace := st.trace ++ [Event.acquire t] }) := by
  simp [exec, h]

theorem exec_unlock_ok {t : Nat} {tmp : Int} {st : State} (h : st.sensor.lock = some t) :
    exec t Action.unlock tmp st =
      .ok (tmp, { sensor := { st.sensor with lock := none },
                  trace := st.trace ++ [Event.release t] }) := by
  simp [exec, h]

theorem exec_ld_ok {t i : Nat} {tmp : Int} {st : State} (h : i < st.sensor.readings.length) :
    exec t (Action.ld i) tmp st =
      .ok (st.sensor.readings[i], { st with trace := st.trace ++ [Event.rd i] }) := by
  simp only [exec]
  exact load_ok (List.getElem?_eq_getElem h)

theorem exec_st_ok {t i : Nat} {d tmp : Int} {st : State} (h : i < st.sensor.readings.length) :
    exec t (Action.st i d) tmp st =
      .ok (tmp, { sensor := { st.sensor with
                    readings := st.sensor.readings.set i (wrap32 (tmp + d)) },
                  trace := st.trace ++ [Event.wr i] }) := by
  simp only [exec, store_ok h]

theorem exec_sleep_ok {t us : Nat} {tmp : Int} {st : State} :
    exec t (Action.sleep us) tmp st = .ok (tmp, { st with trace := st.trace ++ [Event.nap] }) :=
  rfl

/-- No deadlock and no fault: while some worker has actions left, some worker
can perform its next action. -/
theorem progress {base : Nat → Int} {c : Config} (hinv : Inv base c)
    (hl : ∀ u, c.st.sensor.lock = some u → u < c.threads.length)
    (hb : ∀ th ∈ c.threads, bounded c.st.sensor.readings.length th.todo = true)
    (hnd : allDone c = false) : ∃ t c', step t c = some c' := by
  obtain ⟨hthr, _, _⟩ := hinv
  cases hlk : c.st.sensor.lock with
  | some u =>
    have hu := hl u hlk
    have hget : c.threads[u]? = some c.threads[u] := List.getElem?_eq_getElem hu
    have hbu := hb _ (List.getElem_mem hu)
    obtain ⟨ph, hd, hp⟩ := hthr u _ hget
    generalize c.threads[u] = th at hget hbu hd hp
    obtain ⟨todo, tmp⟩ := th
    simp only at hd hp hbu
    cases todo with
    | nil =>
      cases ph <;> simp [disciplined, PhaseOK, hlk] at hd hp
    | cons a rest =>
      cases a with
      | lock => cases ph <;> simp [disciplined, PhaseOK, hlk] at hd hp
      | sleep us => cases ph <;> simp [disciplined, PhaseOK, hlk] at hd hp
      | unlock =>
        exact ⟨u, _, step_eq_some hget (exec_unlock_ok hlk)⟩
      | ld i =>
        simp only [bounded, Bool.and_eq_true, decide_eq_true_eq] at hbu
        exact ⟨u, _, step_eq_some hget (exec_ld_ok hbu.1)⟩
      | st i d =>
        simp only [bounded, Bool.and_eq_true, decide_eq_true_eq] at hbu
        exact ⟨u, _, step_eq_some hget (exec_st_ok hbu.1)⟩
  | none =>
    have : ∃ th ∈ c.threads, th.todo ≠ [] := by
      by_contra hcon
      push_neg at hcon
      have : allDone c = true := by
        simp only [allDone, List.all_eq_true, List.isEmpty_iff]
        exact hcon
      rw [this] at hnd
      cases hnd
    obtain ⟨th, hmem, hne⟩ := this
    obtain ⟨t, hget⟩ := List.mem_iff_getElem?.mp hmem
    obtain ⟨ph, hd, hp⟩ := hthr t _ hget
    obtain ⟨todo, tmp⟩ := th
    simp only at hd hp hne
    cases todo with
    | nil => exact absurd rfl hne
    | cons a rest =>
      cases a with
      | lock => exact ⟨t, _, step_eq_some hget (exec_lock_ok hlk)⟩
      | sleep us => exact ⟨t, _, step_eq_some hget exec_sleep_ok⟩
      | unlock => cases ph <;> simp [disciplined, PhaseOK, hlk] at hd hp
      | ld i => cases ph <;> simp [disciplined, PhaseOK, hlk] at hd hp
      | st i d => cases ph <;> simp [disciplined, PhaseOK, hlk] at hd hp

/-- Every execution can be continued until all workers have finished. -/
theorem exists_complete {base : Nat → Int} : ∀ (m : Nat) (c : Config), remaining c = m →
    Inv base c → (∀ u, c.st.sensor.lock = some u → u < c.threads.length) →
    (∀ th ∈ c.threads, bounded c.st.sensor.readings.length th.todo = true) →
    ∃ sched c', runSched sched c = some c' ∧ allDone c' = true := by
  intro m
  induction m with
  | zero =>
    intro c hm hinv hl hb
    cases hd : allDone c with
    | true => exact ⟨[], c, rfl, hd⟩
    | false =>
      obtain ⟨t, c1, hs⟩ := progress hinv hl hb hd
      have := step_remaining hs
      omega
  | succ m ih =>
    intro c hm hinv hl hb
    cases hd : allDone c with
    | true => exact ⟨[], c, rfl, hd⟩
    | false =>
      obtain ⟨t, c1, hs⟩ := progress hinv hl hb hd
      have hr := step_remaining hs
      obtain ⟨sched, c', hrun, hdone⟩ :=
        ih c1 (by omega) (step_inv hinv hs) (step_lock hs hl) (step_bounded hs hb)
      exact ⟨t :: sched, c', by simp [runSched, hs, hrun], hdone⟩
/-! ## Facts on lists of samples -/

theorem sum_map_add_const (c : Int) : ∀ (l : List Int),
    (l.map (fun v => v + c)).sum = l.sum + c * l.length := by
  intro l
  induction l with
  | nil => simp
  | cons x xs ih =>
    simp only [List.map_cons, List.sum_cons, ih, List.length_cons]
    push_cast
    ring

theorem sum_nonneg_of_mem : ∀ (l : List Int), (∀ x ∈ l, 0 ≤ x) → 0 ≤ l.sum := by
  intro l
  induction l with
  | nil => intro _; simp
  | cons x xs ih =>
    intro h
    have h1 := h x (List.mem_cons_self _ _)
    have h2 := ih (fun y hy => h y (List.mem_cons_of_mem _ hy))
    simp only [List.sum_cons]
    omega

theorem le_sum_of_mem : ∀ (l : List Int), (∀ x ∈ l, 0 ≤ x) → ∀ x ∈ l, x ≤ l.sum := by
  intro l
  induction l with
  | nil => intro _ x hx; cases hx
  | cons y ys ih =>
    intro h x hx
    have h1 := h y (List.mem_cons_self _ _)
    have h2 : ∀ z ∈ ys, 0 ≤ z := fun z hz => h z (List.mem_cons_of_mem _ hz)
    have h3 := sum_nonneg_of_mem ys h2
    simp only [List.sum_cons]
    rcases List.mem_cons.mp hx with rfl | hx'
    · omega
    · have := ih h2 x hx'
      omega

/-- The samples `init_sensor` stores are in `[0, 100)` when `rand()` is
non-negative. -/
theorem sample_range {r : Int} (h : 0 ≤ r) : 0 ≤ Int.tmod r 100 ∧ Int.tmod r 100 < 100 := by
  rw [Int.tmod_eq_emod h (by decide)]
  omega

/-! ## Claims on `init_sensor` -/

/-- C3: for every `count > 0` and every sequence of non-negative values
returned by `rand()`, `init_sensor count` of `Solution/sensor.c` returns a
buffer whose `count` field is `count`, whose block holds exactly `count`
samples, and in which every sample lies in `[0, 100)`. -/
theorem C3_init_sensor_samples (count : Int) (rand : Nat → Int) (hcount : 0 < count)
    (hrand : ∀ k, 0 ≤ rand k) :
    ∃ st, init_sensor count rand = .ok st ∧ st.sensor.count = count ∧
      (st.sensor.readings.length : Int) = count ∧
      ∀ v ∈ st.sensor.readings, 0 ≤ v ∧ v < 100 := by
  refine ⟨_, init_sensor_eq count rand, rfl, ?_, ?_⟩
  · simp only [List.length_map, List.length_range]
    omega
  · intro v hv
    simp only [List.mem_map] at hv
    obtain ⟨i, _, rfl⟩ := hv
    exact sample_range (hrand i)

/-- Witness of C3: `count = 3`, `rand()` returning 1234, 1271, 1308. -/
theorem C3_init_sensor_samples_witness :
    (0 : Int) < 3 ∧
    ∃ st, init_sensor 3 (fun k => 37 * (k : Int) + 1234) = .ok st ∧ st.sensor.count = 3 ∧
      (st.sensor.readings.length : Int) = 3 ∧
      ∀ v ∈ st.sensor.readings, 0 ≤ v ∧ v < 100 :=
  ⟨by decide, C3_init_sensor_samples 3 (fun k => 37 * (k : Int) + 1234) (by decide)
    (fun k => by show (0 : Int) ≤ 37 * (k : Int) + 1234; omega)⟩

/-- C6, the claim fails: `init_sensor(0)` and `init_sensor(-1)` return a
buffer (with `count` 0, respectively -1, and no sample), not an error. -/
theorem C6_init_sensor_nonpositive_counterexample :
    init_sensor 0 (fun _ => 7) =
      .ok { sensor := { readings := [], count := 0, lock := none }, trace := [] } ∧
    init_sensor (-1) (fun _ => 7) =
      .ok { sensor := { readings := [], count := -1, lock := none }, trace := [] } := by
  constructor <;> rfl

/-- C6 (amended): `init_sensor` has no test of `count`; for every
`count <= 0` it returns, with no error, a buffer whose `count` field is
`count` and which holds no sample, and it performs no access. -/
theorem C6_init_sensor_no_size_check (count : Int) (rand : Nat → Int) (hcount : count ≤ 0) :
    init_sensor count rand =
      .ok { sensor := { readings := [], count := count, lock := none }, trace := [] } := by
  have h : count.toNat = 0 := by omega
  rw [init_sensor_eq, h]
  rfl

/-- Witness of C6 (amended): `count = -3`. -/
theorem C6_init_sensor_no_size_check_witness :
    (-3 : Int) ≤ 0 ∧
    init_sensor (-3) (fun k => (k : Int)) =
      .ok { sensor := { readings := [], count := -3, lock := none }, trace := [] } :=
  ⟨by decide, C6_init_sensor_no_size_check (-3) (fun k => (k : Int)) (by decide)⟩
/-! ## Completion of interleaved executions -/

theorem bounded_append (len : Nat) : ∀ (as bs : List Action),
    bounded len (as ++ bs) = (bounded len as && bounded len bs) := by
  intro as
  induction as with
  | nil => intro bs; simp [bounded]
  | cons a as ih =>
    intro bs
    cases a <;> simp [bounded, ih, Bool.and_assoc]

theorem bounded_batch_loop (len : Nat) : ∀ (k i : Nat), i + k ≤ len →
    bounded len (loopActions (fun i => [Action.ld i, Action.st i 5]) i k) = true := by
  intro k
  induction k with
  | zero => intro i _; rfl
  | succ k ih =>
    intro i h
    have hi : i < len := by omega
    rw [loopActions, bounded_append, ih (i + 1) (by omega)]
    simp [bounded, hi]

theorem bounded_elem_loop (len : Nat) : ∀ (k i : Nat), i + k ≤ len →
    bounded len (loopActions
      (fun i => [Action.lock, Action.ld i, Action.st i 5, Action.unlock, Action.sleep 5000])
      i k) = true := by
  intro k
  induction k with
  | zero => intro i _; rfl
  | succ k ih =>
    intro i h
    have hi : i < len := by omega
    rw [loopActions, bounded_append, ih (i + 1) (by omega)]
    simp [bounded, hi]

theorem bounded_sensor_thread {len : Nat} {count : Int} (h : count.toNat ≤ len) :
    bounded len (sensor_thread count) = true := by
  unfold sensor_thread
  rw [bounded_append, bounded_append, bounded_batch_loop len _ 0 (by omega)]
  simp [bounded]

theorem bounded_src_sensor_thread {len : Nat} {count : Int} (h : count.toNat ≤ len) :
    bounded len (Src.sensor_thread count) = true :=
  bounded_elem_loop len _ 0 (by omega)

/-- The workers created on a free mutex can always all run to the end. -/
theorem exists_complete_spawn (n : Nat) (prog : List Action) (st : State)
    (hd : disciplined Phase.out prog = true) (hlock : st.sensor.lock = none)
    (hrange : ∀ v ∈ st.sensor.readings, InRange v)
    (hb : bounded st.sensor.readings.length prog = true) :
    ∃ sched c, runSched sched (spawn n prog st) = some c ∧ allDone c = true := by
  refine exists_complete _ _ rfl (spawn_inv n prog st hd hlock hrange) ?_ ?_
  · intro u hu
    simp [spawn, hlock] at hu
  · intro th hth
    simp only [spawn] at hth ⊢
    obtain ⟨_, rfl⟩ := List.mem_replicate.mp hth
    exact hb

/-! ## Claims on the worker passes -/

/-- C1, the claim fails: one pass over the buffer `[2147483647]` leaves the
sample at `-2147483644` (the `int` addition wraps), not at `2147483647 + 5`. -/
theorem C1_batch_passes_counterexample :
    (passes [0] (mkState [2147483647])).map (fun s => s.sensor.readings) = .ok [-2147483644] ∧
    (-2147483644 : Int) ≠ 2147483647 + 1 * 5 := by
  constructor
  · rfl
  · decide

/-- C1 (amended): for every buffer of `int` samples with `count > 0` and every
number `n` of workers such that no `original[i] + n * 5` exceeds `INT_MAX`:
the `n` passes of the batch `sensor_thread`, run in any order of the workers,
leave every sample at `original[i] + n * 5` and `count` unchanged; the `n`
workers can always run to completion, and every interleaved execution of them
that completes leaves the same samples.  The buffer `[10,20,30,40]` with two
workers ends as `[20,30,40,50]`, where `compute_average` returns 35. -/
theorem C1_batch_passes (st : State) (n : Nat)
    (hcount : 0 < st.sensor.count)
    (hlen : st.sensor.readings.length = st.sensor.count.toNat)
    (hlock : st.sensor.lock = none)
    (hrange : ∀ v ∈ st.sensor.readings, InRange v)
    (hfit : ∀ v ∈ st.sensor.readings, v + n * 5 ≤ INT_MAX) :
    (∀ tids : List Nat, tids.length = n →
      ∃ st', passes tids st = .ok st' ∧
        st'.sensor.readings = st.sensor.readings.map (fun (v : Int) => v + (n : Int) * 5) ∧
        st'.sensor.count = st.sensor.count) ∧
    (∃ sched c, runSched sched (spawn n (sensor_thread st.sensor.count) st) = some c ∧
      allDone c = true) ∧
    (∀ sched c, runSched sched (spawn n (sensor_thread st.sensor.count) st) = some c →
      allDone c = true →
      c.st.sensor.readings = st.sensor.readings.map (fun (v : Int) => v + (n : Int) * 5) ∧
      c.st.sensor.count = st.sensor.count) ∧
    (∃ st' st'', passes [0, 1] (mkState [10, 20, 30, 40]) = .ok st' ∧
      st'.sensor.readings = [20, 30, 40, 50] ∧ compute_average st' = .ok (35, st'')) := by
  have _ := hcount
  have hmap : st.sensor.readings.map (fun v => wrap32 (v + 5 * n)) =
      st.sensor.readings.map (fun (v : Int) => v + (n : Int) * 5) := by
    apply List.map_congr_left
    intro v hv
    have h1 := hrange v hv
    have h2 := hfit v hv
    have h3 : InRange (v + 5 * n) := by
      unfold InRange INT_MIN INT_MAX at *
      omega
    rw [wrap32_of_inRange h3]
    ring
  refine ⟨?_, ?_, ?_, ?_⟩
  · intro tids htids
    refine ⟨_, passes_eq tids st hlen hlock hrange, ?_, rfl⟩
    simp only [htids]
    exact hmap
  · exact exists_complete_spawn n _ st (disciplined_sensor_thread _) hlock hrange
      (bounded_sensor_thread (by omega))
  · intro sched c hrun hdone
    obtain ⟨h1, h2, _⟩ := batch_interleaving n st hlen hlock hrange sched c hrun hdone
    exact ⟨h1.trans hmap, h2⟩
  · exact ⟨_, _, rfl, rfl, rfl⟩

/-- Witness of C1 (amended): the buffer `[10,20,30,40]`, two workers, run in
the order 1, 0 and as the interleaved execution in which worker 1 takes the
mutex first. -/
theorem C1_batch_passes_witness :
    (∃ st', passes [1, 0] (mkState [10, 20, 30, 40]) = .ok st' ∧
      st'.sensor.readings = [20, 30, 40, 50] ∧ st'.sensor.count = 4) ∧
    (∃ c, runSched [1, 1, 1, 1, 1, 1, 1, 1, 1, 1, 0, 0, 0, 0, 0, 0, 0, 0, 0, 0]
        (spawn 2 (sensor_thread 4) (mkState [10, 20, 30, 40])) = some c ∧
      allDone c = true ∧
      c.st.sensor.readings = [20, 30, 40, 50] ∧ c.st.sensor.count = 4) := by
  have h := C1_batch_passes (mkState [10, 20, 30, 40]) 2 (by decide) (by decide) rfl
    (by decide) (by decide)
  obtain ⟨c, hc⟩ : ∃ c, runSched [1, 1, 1, 1, 1, 1, 1, 1, 1, 1, 0, 0, 0, 0, 0, 0, 0, 0, 0, 0]
      (spawn 2 (sensor_thread 4) (mkState [10, 20, 30, 40])) = some c := ⟨_, rfl⟩
  have hd : allDone c = true := by
    have key : (runSched [1, 1, 1, 1, 1, 1, 1, 1, 1, 1, 0, 0, 0, 0, 0, 0, 0, 0, 0, 0]
        (spawn 2 (sensor_thread 4) (mkState [10, 20, 30, 40]))).map allDone = some true := by
      rfl
    rw [hc] at key
    simpa using key
  exact ⟨h.1 [1, 0] rfl, c, hc, hd, h.2.2.1 _ c hc hd⟩

/-- The value `compute_average` returns after the passes of the workers `tids`
on the buffer `init_sensor` builds when every `rand()` returns `r`. -/
theorem average_of_constant (count : Int) (r : Int) (tids : List Nat) (hcount : 0 < count)
    (hr : 0 ≤ r) :
    ((init_sensor count (fun _ => r)).bind
      (fun st => (passes tids st).bind (fun st1 => (compute_average st1).map Prod.fst))) =
    .ok (Int.tdiv (wrap32 (count * wrap32 (Int.tmod r 100 + 5 * tids.length))) count) := by
  have hs := sample_range hr
  have hlen : ((List.range count.toNat).map (fun _ => Int.tmod r 100)).length = count.toNat := by
    simp
  have hrange : ∀ v ∈ (List.range count.toNat).map (fun _ => Int.tmod r 100), InRange v := by
    intro v hv
    simp only [List.mem_map] at hv
    obtain ⟨_, _, rfl⟩ := hv
    unfold InRange INT_MIN INT_MAX
    omega
  rw [init_sensor_eq]
  simp only [Except.bind]
  rw [passes_eq tids _ hlen rfl hrange]
  simp only []
  rw [compute_average_eq _ (by simp) (by simp only []; omega)]
  simp only [Except.map, List.map_map, Except.ok.injEq]
  congr 2
  have hc : ((fun v => wrap32 (v + 5 * (tids.length : Int))) ∘ fun (_ : Nat) => Int.tmod r 100) =
      fun _ => wrap32 (Int.tmod r 100 + 5 * tids.length) := rfl
  rw [hc, List.map_const', List.sum_replicate, List.length_range, nsmul_eq_mul]
  congr 1
  omega

/-- C2, the claim fails: with `count = 20700000`, every `rand()` equal to 99
and one worker, `compute_average` returns 99 on the original samples and -103
after the pass (the `int` accumulator wraps at 20700000 * 104), not 99 + 5. -/
theorem C2_average_shift_counterexample :
    ((init_sensor 20700000 (fun _ => 99)).bind
      (fun st => (compute_average st).map Prod.fst)) = .ok 99 ∧
    ((init_sensor 20700000 (fun _ => 99)).bind
      (fun st => (passes [0] st).bind (fun st1 => (compute_average st1).map Prod.fst)))
      = .ok (-103) ∧
    (-103 : Int) ≠ 99 + 1 * 5 := by
  refine ⟨?_, ?_, by decide⟩
  · have h := average_of_constant 20700000 99 [] (by decide) (by decide)
    have hv : Int.tdiv (wrap32 (20700000 * wrap32 (Int.tmod 99 100 +
        5 * (([] : List Nat).length : Int)))) 20700000 = 99 := rfl
    rw [hv] at h
    exact h
  · rw [average_of_constant 20700000 99 [0] (by decide) (by decide)]
    rfl
/-- C2 (amended): for every `count > 0`, every buffer `init_sensor(count)`
produces from non-negative `rand()` values, and every number `n` of workers
for which the sum of the final samples, `sum(original) + n * 5 * count`, does
not exceed `INT_MAX`: `compute_average` after the `n` passes returns the value
it returns on the original samples plus `n * 5`. -/
theorem C2_average_shift (count : Int) (rand : Nat → Int) (n : Nat) (hcount : 0 < count)
    (hrand : ∀ k, 0 ≤ rand k) (st : State) (hst : init_sensor count rand = .ok st)
    (hfit : st.sensor.readings.sum + (n : Int) * 5 * count ≤ INT_MAX)
    (tids : List Nat) (htids : tids.length = n) :
    ∃ a0 s0 st1 a1 s1, compute_average st = .ok (a0, s0) ∧ passes tids st = .ok st1 ∧
      compute_average st1 = .ok (a1, s1) ∧ a1 = a0 + (n : Int) * 5 := by
  rw [init_sensor_eq] at hst
  injection hst with hst
  subst hst
  subst htids
  simp only at hfit
  generalize hr : (List.range count.toNat).map (fun i => Int.tmod (rand i) 100) = r at hfit
  have hlen : r.length = count.toNat := by rw [← hr]; simp
  have h01 : ∀ v ∈ r, 0 ≤ v ∧ v < 100 := by
    intro v hv
    rw [← hr] at hv
    simp only [List.mem_map] at hv
    obtain ⟨i, _, rfl⟩ := hv
    exact sample_range (hrand i)
  have hS := sum_nonneg_of_mem r (fun v hv => (h01 v hv).1)
  have hmul : (tids.length : Int) * 5 ≤ (tids.length : Int) * 5 * count :=
    le_mul_of_one_le_right (by positivity) (by omega)
  have hrange : ∀ v ∈ r, InRange v := by
    intro v hv
    have := h01 v hv
    unfold InRange INT_MIN INT_MAX
    omega
  have hmap : r.map (fun v => wrap32 (v + 5 * (tids.length : Int))) =
      r.map (fun v => v + (tids.length : Int) * 5) := by
    apply List.map_congr_left
    intro v hv
    have h1 := h01 v hv
    have h2 := le_sum_of_mem r (fun v hv => (h01 v hv).1) v hv
    have h3 : InRange (v + 5 * (tids.length : Int)) := by
      unfold InRange INT_MIN INT_MAX at *
      omega
    rw [wrap32_of_inRange h3]
    ring
  have hsum1 : (r.map (fun v => v + (tids.length : Int) * 5)).sum =
      r.sum + (tids.length : Int) * 5 * count := by
    rw [sum_map_add_const, hlen]
    have : ((count.toNat : Nat) : Int) = count := by omega
    rw [this]
  have hw0 : wrap32 r.sum = r.sum := by
    apply wrap32_of_inRange
    unfold InRange INT_MIN INT_MAX at *
    omega
  have hw1 : wrap32 (r.sum + (tids.length : Int) * 5 * count) =
      r.sum + (tids.length : Int) * 5 * count := by
    apply wrap32_of_inRange
    unfold InRange INT_MIN INT_MAX at *
    omega
  refine ⟨_, _, _, _, _, compute_average_eq _ hlen (by simp only []; omega),
    passes_eq tids _ hlen rfl hrange,
    compute_average_eq _ (by simp only [List.length_map]; exact hlen) (by simp only []; omega),
    ?_⟩
  simp only [hmap, hsum1, hw0, hw1]
  rw [Int.tdiv_eq_ediv (by omega) (by omega), Int.tdiv_eq_ediv hS (by omega)]
  exact Int.add_mul_ediv_right _ _ (by omega)

/-- Witness of C2 (amended): `count = 3`, `rand()` returning 1234, 1271, 1308
(samples 34, 71, 8), two workers. -/
theorem C2_average_shift_witness :
    ∃ a0 s0 st1 a1 s1,
      compute_average { sensor := { readings := [34, 71, 8], count := 3, lock := none },
                        trace := [Event.wr 0, Event.wr 1, Event.wr 2] } = .ok (a0, s0) ∧
      passes [0, 1] { sensor := { readings := [34, 71, 8], count := 3, lock := none },
                      trace := [Event.wr 0, Event.wr 1, Event.wr 2] } = .ok st1 ∧
      compute_average st1 = .ok (a1, s1) ∧ a1 = a0 + ((2 : Nat) : Int) * 5 :=
  C2_average_shift 3 (fun k => 37 * (k : Int) + 1234) 2 (by decide)
    (fun k => by show (0 : Int) ≤ 37 * (k : Int) + 1234; omega)
    { sensor := { readings := [34, 71, 8], count := 3, lock := none },
      trace := [Event.wr 0, Event.wr 1, Event.wr 2] }
    (by rfl) (by decide) [0, 1] rfl
/-- C4, the claim fails: on the buffer `[2147483647]` an interleaved execution
of two per-element workers ends with the sample at `-2147483639` (the `int`
additions wrap), not at `2147483647 + 2 * 5`. -/
theorem C4_elem_refines_batch_counterexample :
    (runSched [0, 0, 0, 0, 1, 0, 1, 1, 1, 1]
        (spawn 2 (Src.sensor_thread 1) (mkState [2147483647]))).map
      (fun c => (allDone c, c.st.sensor.readings)) = some (true, [-2147483639]) ∧
    (-2147483639 : Int) ≠ 2147483647 + 2 * 5 := by
  constructor
  · rfl
  · decide

/-- C4 (amended): for every buffer of `int` samples whose mutex is free, two
workers running the per-element `sensor_thread` of `src/sensor.c` can always
run to completion, and every interleaving of their locked increments that
completes leaves the buffer two batch passes of `Solution/sensor.c` leave
(run one after the other or interleaved): every sample ends at
`original + 2 * 5` reduced to `int`, which is `original + 2 * 5` itself
whenever that value does not exceed `INT_MAX`. -/
theorem C4_elem_refines_batch (st : State)
    (hlen : st.sensor.readings.length = st.sensor.count.toNat)
    (hlock : st.sensor.lock = none)
    (hrange : ∀ v ∈ st.sensor.readings, InRange v) :
    (∃ sched c, runSched sched (spawn 2 (Src.sensor_thread st.sensor.count) st) = some c ∧
      allDone c = true) ∧
    (∀ sched c, runSched sched (spawn 2 (Src.sensor_thread st.sensor.count) st) = some c →
      allDone c = true →
      (∃ st2, passes [0, 1] st = .ok st2 ∧ c.st.sensor.readings = st2.sensor.readings ∧
        c.st.sensor.count = st2.sensor.count) ∧
      (∀ sched' c', runSched sched' (spawn 2 (sensor_thread st.sensor.count) st) = some c' →
        allDone c' = true → c.st.sensor.readings = c'.st.sensor.readings) ∧
      ((∀ v ∈ st.sensor.readings, v + 2 * 5 ≤ INT_MAX) →
        c.st.sensor.readings = st.sensor.readings.map (fun (v : Int) => v + 2 * 5))) := by
  refine ⟨exists_complete_spawn 2 _ st (disciplined_src_sensor_thread _) hlock hrange
    (bounded_src_sensor_thread (by omega)), ?_⟩
  intro sched c hrun hdone
  obtain ⟨h1, h2, _⟩ := elem_interleaving 2 st hlen hlock hrange sched c hrun hdone
  refine ⟨⟨_, passes_eq [0, 1] st hlen hlock hrange, ?_, h2⟩, ?_, ?_⟩
  · rw [h1]; rfl
  · intro sched' c' hrun' hdone'
    obtain ⟨h1', _, _⟩ := batch_interleaving 2 st hlen hlock hrange sched' c' hrun' hdone'
    rw [h1, h1']
  · intro hfit
    rw [h1]
    apply List.map_congr_left
    intro v hv
    have ha := hrange v hv
    have hb := hfit v hv
    have h3 : InRange (v + 5 * ((2 : Nat) : Int)) := by
      unfold InRange INT_MIN INT_MAX at *
      omega
    rw [wrap32_of_inRange h3]
    norm_num

/-- Witness of C4 (amended): the buffer `[1, 2]` and an execution in which the
two per-element workers alternate on the mutex. -/
theorem C4_elem_refines_batch_witness :
    ∃ c, runSched [0, 0, 0, 0, 1, 0, 1, 1, 1, 0, 1, 0, 0, 0, 0, 1, 1, 1, 1, 1]
        (spawn 2 (Src.sensor_thread 2) (mkState [1, 2])) = some c ∧
      allDone c = true ∧ c.st.sensor.readings = [11, 12] ∧
      ∃ st2, passes [0, 1] (mkState [1, 2]) = .ok st2 ∧
        c.st.sensor.readings = st2.sensor.readings := by
  obtain ⟨c, hc⟩ : ∃ c, runSched [0, 0, 0, 0, 1, 0, 1, 1, 1, 0, 1, 0, 0, 0, 0, 1, 1, 1, 1, 1]
      (spawn 2 (Src.sensor_thread 2) (mkState [1, 2])) = some c := ⟨_, rfl⟩
  have hd : allDone c = true := by
    have key : (runSched [0, 0, 0, 0, 1, 0, 1, 1, 1, 0, 1, 0, 0, 0, 0, 1, 1, 1, 1, 1]
        (spawn 2 (Src.sensor_thread 2) (mkState [1, 2]))).map allDone = some true := by rfl
    rw [hc] at key
    simpa using key
  have h := (C4_elem_refines_batch (mkState [1, 2]) (by decide) rfl (by decide)).2 _ c hc hd
  obtain ⟨st2, h2, h3, _⟩ := h.1
  exact ⟨c, hc, hd, h.2.2 (by decide), st2, h2, h3⟩
/-! ## Claims on accesses and traces -/

theorem rmwEvents_eq : ∀ (k i : Nat),
    rmwEvents i k = (List.range' i k).flatMap (fun j => [Event.rd j, Event.wr j]) := by
  intro k
  induction k with
  | zero => intro i; rfl
  | succ k ih =>
    intro i
    simp [rmwEvents, ih (i + 1), List.range'_succ]

theorem inBounds_rmwEvents (count : Int) : ∀ (k i : Nat), ((i + k : Nat) : Int) ≤ count →
    ∀ e ∈ rmwEvents i k, inBounds count e = true := by
  intro k
  induction k with
  | zero => intro i _ e he; cases he
  | succ k ih =>
    intro i h e he
    simp only [rmwEvents, List.mem_cons] at he
    rcases he with rfl | rfl | he
    · simp only [inBounds, decide_eq_true_eq]; omega
    · simp only [inBounds, decide_eq_true_eq]; omega
    · exact ih (i + 1) (by omega) e he

theorem guarded_rmwEvents (rest : List Event) : ∀ (k i : Nat),
    guarded true (rmwEvents i k ++ rest) = guarded true rest := by
  intro k
  induction k with
  | zero => intro i; rfl
  | succ k ih =>
    intro i
    simp [rmwEvents, guarded, ih (i + 1)]

/-- The passes of the workers `tids` run without fault on every buffer whose
block has `count` cells and whose mutex is free; they keep `count` and the
size of the block, release the mutex, and extend the trace by the events of
each pass in turn. -/
theorem passes_trace : ∀ (tids : List Nat) (st : State),
    st.sensor.readings.length = st.sensor.count.toNat → st.sensor.lock = none →
    ∃ st', passes tids st = .ok st' ∧
      st'.sensor.readings.length = st.sensor.readings.length ∧
      st'.sensor.count = st.sensor.count ∧ st'.sensor.lock = none ∧
      st'.trace = st.trace ++ tids.flatMap (passEvents st.sensor.count) := by
  intro tids
  induction tids with
  | nil => intro st _ hlock; exact ⟨st, rfl, rfl, rfl, hlock, by simp⟩
  | cons t ts ih =>
    intro st hlen hlock
    obtain ⟨st', h1, h2, h3, h4, h5⟩ := ih
      { sensor := { readings := st.sensor.readings.map (fun v => wrap32 (v + 5)),
                    count := st.sensor.count, lock := none },
        trace := st.trace ++ passEvents st.sensor.count t } (by simpa using hlen) rfl
    refine ⟨st', ?_, by simpa using h2, h3, h4, by simpa using h5⟩
    simp only [passes, pass_eq t st hlen hlock]
    exact h1

theorem inBounds_passEvents (count : Int) (tid : Nat) (hcount : 0 ≤ count) :
    ∀ e ∈ passEvents count tid, inBounds count e = true := by
  intro e he
  simp only [passEvents, List.mem_append, List.mem_singleton] at he
  rcases he with (rfl | he) | rfl
  · rfl
  · exact inBounds_rmwEvents count _ 0 (by omega) e he
  · rfl

/-- C5: for every `count > 0`, `init_sensor` returns a buffer after writing
exactly the cells `0 .. count - 1` (never the cell `count`), and on that buffer
the passes of `sensor_thread` followed by `compute_average` run with no
out-of-range access: every access recorded in the trace of the whole run,
creation included, is at an index in `[0, count)`. -/
theorem C5_accesses_in_bounds (count : Int) (rand : Nat → Int) (hcount : 0 < count) :
    ∃ st, init_sensor count rand = .ok st ∧
      st.trace = (List.range count.toNat).map Event.wr ∧
      Event.wr count.toNat ∉ st.trace ∧
      ∀ tids : List Nat, ∃ st1 a st2, passes tids st = .ok st1 ∧
        compute_average st1 = .ok (a, st2) ∧
        ∀ e ∈ st2.trace, inBounds count e = true := by
  refine ⟨_, init_sensor_eq count rand, rfl, ?_, ?_⟩
  · simp
  · intro tids
    obtain ⟨st1, h1, h2, h3, _, h5⟩ := passes_trace tids
      { sensor := { readings := (List.range count.toNat).map (fun i => Int.tmod (rand i) 100),
                    count := count, lock := none },
        trace := (List.range count.toNat).map Event.wr } (by simp) rfl
    simp only [List.length_map, List.length_range] at h2
    simp only at h3 h5
    refine ⟨st1, _, _, h1, compute_average_eq st1 (by rw [h2, h3]) (by rw [h3]; omega), ?_⟩
    intro e he
    simp only [h5, h3, List.mem_append, List.mem_map, List.mem_range, List.mem_flatMap] at he
    rcases he with (⟨i, hi, rfl⟩ | ⟨t, _, he⟩) | ⟨i, hi, rfl⟩
    · simp only [inBounds, decide_eq_true_eq]; omega
    · exact inBounds_passEvents count t (by omega) e he
    · simp only [inBounds, decide_eq_true_eq]; omega

/-- Witness of C5: `count = 2`, one worker. -/
theorem C5_accesses_in_bounds_witness :
    ∃ st, init_sensor 2 (fun k => (k : Int) + 41) = .ok st ∧
      st.trace = [Event.wr 0, Event.wr 1] ∧ Event.wr 2 ∉ st.trace ∧
      ∃ st1 a st2, passes [0] st = .ok st1 ∧ compute_average st1 = .ok (a, st2) ∧
        ∀ e ∈ st2.trace, inBounds 2 e = true := by
  obtain ⟨st, h1, h2, h3, h4⟩ := C5_accesses_in_bounds 2 (fun k => (k : Int) + 41) (by decide)
  exact ⟨st, h1, h2, h3, h4 [0]⟩
/-- C9: for every buffer whose block has `count` cells and whose mutex is
free, one run of the batch `sensor_thread` by thread `tid` returns, and the
events it appends to the trace are exactly: one acquisition of the mutex, the
read and the write of the cells `0, 1, ..., count - 1` in that order, one
release; every access of that trace happens while the mutex is held, and the
worker exits with the mutex released. -/
theorem C9_batch_trace (st : State) (tid : Nat)
    (hlen : st.sensor.readings.length = st.sensor.count.toNat)
    (hlock : st.sensor.lock = none) :
    ∃ st', pass tid st = .ok st' ∧
      st'.trace = st.trace ++ ([Event.acquire tid] ++
        (List.range st.sensor.count.toNat).flatMap (fun i => [Event.rd i, Event.wr i]) ++
        [Event.release tid]) ∧
      guarded false ([Event.acquire tid] ++
        (List.range st.sensor.count.toNat).flatMap (fun i => [Event.rd i, Event.wr i]) ++
        [Event.release tid]) = true ∧
      st'.sensor.lock = none := by
  have hev : passEvents st.sensor.count tid = [Event.acquire tid] ++
      (List.range st.sensor.count.toNat).flatMap (fun i => [Event.rd i, Event.wr i]) ++
      [Event.release tid] := by
    rw [passEvents, rmwEvents_eq, List.range_eq_range']
  refine ⟨_, pass_eq tid st hlen hlock, by rw [← hev], ?_, rfl⟩
  rw [← hev, passEvents]
  simp [guarded, guarded_rmwEvents]

/-- Witness of C9: the buffer `[7, 8, 9]`, thread 4. -/
theorem C9_batch_trace_witness :
    ∃ st', pass 4 (mkState [7, 8, 9]) = .ok st' ∧
      st'.trace = [Event.acquire 4, Event.rd 0, Event.wr 0, Event.rd 1, Event.wr 1,
        Event.rd 2, Event.wr 2, Event.release 4] ∧
      st'.sensor.lock = none := by
  obtain ⟨st', h1, h2, _, h4⟩ := C9_batch_trace (mkState [7, 8, 9]) 4 (by decide) rfl
  exact ⟨st', h1, h2, h4⟩

/-! ## Claims on `compute_average` -/

/-- The accumulation loop either returns, leaving the `SensorData` as it was,
or stops at an access outside the block. -/
theorem sum_loop_cases : ∀ (k i : Nat) (acc : Int) (st : State),
    (∃ acc' tr, forLoop
      (fun i (acc : Int × State) =>
        match load i acc.2 with
        | .ok (v, st') => .ok (wrap32 (acc.1 + v), st')
        | .error e => .error e)
      i k (acc, st) = .ok (acc', { sensor := st.sensor, trace := tr })) ∨
    (∃ j, forLoop
      (fun i (acc : Int × State) =>
        match load i acc.2 with
        | .ok (v, st') => .ok (wrap32 (acc.1 + v), st')
        | .error e => .error e)
      i k (acc, st) = .error (Fault.outOfBounds j)) := by
  intro k
  induction k with
  | zero => intro i acc st; exact Or.inl ⟨acc, st.trace, rfl⟩
  | succ k ih =>
    intro i acc st
    cases hv : st.sensor.readings[i]? with
    | none =>
      refine Or.inr ⟨i, ?_⟩
      simp [forLoop, load, hv]
    | some v =>
      simp only [forLoop, load_ok hv]
      exact ih (i + 1) _ { sensor := st.sensor, trace := st.trace ++ [Event.rd i] }

/-- C8, the claim fails: on a buffer with `count == 0` the function reaches
the division `sum / s->count` and divides by zero; there is no test of
`count` in front of it and no error value is returned. -/
theorem C8_division_by_zero_counterexample :
    compute_average { sensor := { readings := [], count := 0, lock := none }, trace := [] } =
      .error Fault.divByZero := by
  rfl

/-- C8 (amended): `compute_average` has no test of `count`: it performs the
division `sum / s->count` whenever its loop returns, so it divides by zero
exactly when `count == 0`. -/
theorem C8_division_by_zero_iff (st : State) :
    compute_average st = .error Fault.divByZero ↔ st.sensor.count = 0 := by
  constructor
  · intro h
    by_contra hne
    unfold compute_average at h
    rcases sum_loop_cases st.sensor.count.toNat 0 0 st with ⟨acc', tr, heq⟩ | ⟨j, heq⟩
    · rw [heq] at h
      simp only [int_div, if_neg hne] at h
      by_cases hov : acc' = INT_MIN ∧ st.sensor.count = -1
      · simp [if_pos hov] at h
      · simp [if_neg hov] at h
    · rw [heq] at h
      simp at h
  · intro h
    simp [compute_average, int_div, h, forLoop]
/-- C7, the claim fails: on `[1, 2]` the function returns 1 where the mean is
3/2 (the division is the truncating `int` division), and on `[2147483647, 1]`
it returns -1073741824 where the mean is 1073741824 (the accumulator is an
`int` and wraps). -/
theorem C7_exact_mean_counterexample :
    ((compute_average (mkState [1, 2])).map Prod.fst = .ok 1 ∧
      exactMean (mkState [1, 2]).sensor = 3 / 2 ∧ ((1 : Int) : ℚ) ≠ 3 / 2) ∧
    ((compute_average (mkState [2147483647, 1])).map Prod.fst = .ok (-1073741824) ∧
      exactMean (mkState [2147483647, 1]).sensor = 1073741824 ∧
      ((-1073741824 : Int) : ℚ) ≠ 1073741824) := by
  refine ⟨⟨by rfl, ?_, by norm_num⟩, ⟨by rfl, ?_, by norm_num⟩⟩
  · simp [exactMean, mkState]
  · simp [exactMean, mkState]; norm_num

/-- C7 (amended): for every buffer with `count > 0` whose sum of samples fits
in a 32-bit `int` (the type of the accumulator) and is a multiple of `count`,
`compute_average` returns the exact arithmetic mean of the samples. -/
theorem C7_average_exact (st : State) (hcount : 0 < st.sensor.count)
    (hlen : st.sensor.readings.length = st.sensor.count.toNat)
    (hfit : InRange st.sensor.readings.sum)
    (hdvd : st.sensor.count ∣ st.sensor.readings.sum) :
    ∃ a st', compute_average st = .ok (a, st') ∧ (a : ℚ) = exactMean st.sensor := by
  refine ⟨Int.tdiv st.sensor.readings.sum st.sensor.count,
    { st with trace := st.trace ++ (List.range st.sensor.count.toNat).map Event.rd }, ?_, ?_⟩
  · rw [compute_average_eq st hlen (by omega), wrap32_of_inRange hfit]
  · have hne : (st.sensor.count : ℚ) ≠ 0 := by
      have : st.sensor.count ≠ 0 := by omega
      exact_mod_cast this
    rw [Int.tdiv_eq_ediv_of_dvd hdvd, Int.cast_div hdvd hne]
    rfl

/-- Witness of C7 (amended): the buffer `[20, 30, 40, 50]`, sum 140, mean 35. -/
theorem C7_average_exact_witness :
    ∃ a st', compute_average (mkState [20, 30, 40, 50]) = .ok (a, st') ∧
      (a : ℚ) = exactMean (mkState [20, 30, 40, 50]).sensor :=
  C7_average_exact (mkState [20, 30, 40, 50]) (by decide) (by decide) (by decide) (by decide)

/-- C10: `compute_average` is read-only: for every buffer with `count > 0`
(its block holding `count` cells) it returns a value and leaves the
`SensorData` as it was, samples and `count` included; all it does is read the
cells `0 .. count - 1`; called again right away it returns the same value. -/
theorem C10_average_read_only (st : State) (hcount : 0 < st.sensor.count)
    (hlen : st.sensor.readings.length = st.sensor.count.toNat) :
    ∃ a st', compute_average st = .ok (a, st') ∧ st'.sensor = st.sensor ∧
      st'.trace = st.trace ++ (List.range st.sensor.count.toNat).map Event.rd ∧
      ∃ st'', compute_average st' = .ok (a, st'') := by
  have h2 := compute_average_eq
    { st with trace := st.trace ++ (List.range st.sensor.count.toNat).map Event.rd } hlen
    (by simp only []; omega)
  exact ⟨_, _, compute_average_eq st hlen (by omega), rfl, rfl, _, h2⟩

/-- Witness of C10: the buffer `[3, 4, 8]`. -/
theorem C10_average_read_only_witness :
    ∃ a st', compute_average (mkState [3, 4, 8]) = .ok (a, st') ∧
      st'.sensor = (mkState [3, 4, 8]).sensor ∧
      st'.trace = [Event.rd 0, Event.rd 1, Event.rd 2] ∧
      ∃ st'', compute_average st' = .ok (a, st'') :=
  C10_average_read_only (mkState [3, 4, 8]) (by decide) (by decide)

/-! ## Claims on the creation loop of `src/sensor.c` -/

/-- Closed form of the loop that fills the cells `0 .. count - 1` of the fresh
block, whatever the mutex field holds. -/
theorem fill_eq (count : Int) (rand : Nat → Int) (lock0 : Option Nat) :
    forLoop (fun i st => store i (Int.tmod (rand i) 100) st) 0 count.toNat
      { sensor := { readings := malloc_ints count, count := count, lock := lock0 },
        trace := [] } = .ok
      { sensor := { readings := (List.range count.toNat).map (fun i => Int.tmod (rand i) 100),
                    count := count, lock := lock0 },
        trace := (List.range count.toNat).map Event.wr } := by
  obtain ⟨st', hrun, hc, hl, hlen, hget, htr⟩ :=
    init_loop rand count.toNat 0
      { sensor := { readings := malloc_ints count, count := count, lock := lock0 },
        trace := [] }
      (by simp [malloc_ints])
  rw [hrun]
  obtain ⟨⟨r, c, l⟩, t⟩ := st'
  simp only at hc hl hlen hget htr
  have hr : r = (List.range count.toNat).map (fun i => Int.tmod (rand i) 100) := by
    apply List.ext_getElem?
    intro j
    rw [hget j]
    by_cases hj : j < count.toNat
    · have h0 : 0 ≤ j ∧ j < 0 + count.toNat := by omega
      rw [if_pos h0]
      simp [List.getElem?_range hj]
    · have h0 : ¬ (0 ≤ j ∧ j < 0 + count.toNat) := by omega
      rw [if_neg h0]
      have h1 : (malloc_ints count)[j]? = none := by
        apply List.getElem?_eq_none
        simp [malloc_ints]; omega
      have h2 : (List.map (fun i => Int.tmod (rand i) 100) (List.range count.toNat))[j]?
          = none := by
        apply List.getElem?_eq_none
        simp; omega
      rw [h1, h2]
  simp only [Except.ok.injEq, State.mk.injEq, SensorData.mk.injEq]
  exact ⟨⟨hr, hc, hl⟩, by simp [htr, List.range_eq_range']⟩

/-- While the writes stay inside the block, the loop of `src/sensor.c` does
what the checked loop does. -/
theorem src_init_loop_prefix (rand : Nat → Int) : ∀ (k i m : Nat) (st st' : State),
    forLoop (fun i st => store i (Int.tmod (rand i) 100) st) i k st = .ok st' →
    Src.init_loop rand i (k + m) st = Src.init_loop rand (i + k) m st' := by
  intro k
  induction k with
  | zero =>
    intro i m st st' h
    simp only [forLoop, Except.ok.injEq] at h
    subst h
    simp
  | succ k ih =>
    intro i m st st' h
    simp only [forLoop] at h
    cases hs : store i (Int.tmod (rand i) 100) st with
    | error e => simp [hs] at h
    | ok st1 =>
      simp only [hs] at h
      have := ih (i + 1) m st1 st' h
      rw [show k + 1 + m = (k + m) + 1 by omega, Src.init_loop]
      simp only [hs]
      rw [this, show i + 1 + k = i + (k + 1) by omega]

/-- C11: for every `count >= 0`, the creation loop of `init_sensor` in
`src/sensor.c` performs `count + 1` writes, at the indices `0, 1, ..., count`
in that order; the last of them, at index `count`, is outside the block of
`count` cells that was allocated, and it is where the run leaves defined
behaviour. -/
theorem C11_src_init_sensor_overrun (count : Int) (rand : Nat → Int) (lock0 : Option Nat)
    (hcount : 0 ≤ count) :
    ∃ st, Src.init_sensor count rand lock0 = (st, some (Fault.outOfBounds count.toNat)) ∧
      st.sensor.readings.length = count.toNat ∧
      st.trace = (List.range (count.toNat + 1)).map Event.wr ∧
      (st.trace.length : Int) = count + 1 ∧
      st.trace.getLast? = some (Event.wr count.toNat) ∧
      inBounds count (Event.wr count.toNat) = false := by
  have hn : (count + 1).toNat = count.toNat + 1 := by omega
  have hrun : Src.init_sensor count rand lock0 =
      ({ sensor := { readings := (List.range count.toNat).map (fun i => Int.tmod (rand i) 100),
                     count := count, lock := lock0 },
         trace := (List.range count.toNat).map Event.wr ++ [Event.wr count.toNat] },
       some (Fault.outOfBounds count.toNat)) := by
    unfold Src.init_sensor
    rw [hn, src_init_loop_prefix rand count.toNat 0 1 _ _ (fill_eq count rand lock0)]
    simp [Src.init_loop, store]
  refine ⟨_, hrun, by simp, ?_, ?_, ?_, ?_⟩
  · simp [List.range_succ]
  · simp only [List.length_append, List.length_map, List.length_range, List.length_singleton]
    push_cast
    omega
  · simp
  · simp only [inBounds, decide_eq_false_iff_not]
    omega

/-- Witness of C11: `count = 2` writes the cells 0, 1 and then index 2 of a
block of two cells; `count = 0` writes index 0 of an empty block. -/
theorem C11_src_init_sensor_overrun_witness :
    (∃ st, Src.init_sensor 2 (fun k => (k : Int) + 41) none = (st, some (Fault.outOfBounds 2)) ∧
      st.sensor.readings.length = 2 ∧
      st.trace = [Event.wr 0, Event.wr 1, Event.wr 2]) ∧
    (∃ st, Src.init_sensor 0 (fun k => (k : Int) + 41) none = (st, some (Fault.outOfBounds 0)) ∧
      st.sensor.readings.length = 0 ∧
      st.trace = [Event.wr 0]) := by
  obtain ⟨st, h1, h2, h3, _⟩ :=
    C11_src_init_sensor_overrun 2 (fun k => (k : Int) + 41) none (by decide)
  obtain ⟨st0, k1, k2, k3, _⟩ :=
    C11_src_init_sensor_overrun 0 (fun k => (k : Int) + 41) none (by decide)
  exact ⟨⟨st, h1, h2, h3⟩, ⟨st0, k1, k2, k3⟩⟩
/-! ## Claims on `read_file` -/

theorem calloc_bytes_length (n : Nat) : (calloc_bytes n).length = n := by
  simp [calloc_bytes]

theorem calloc_bytes_get {n i : Nat} (h : i < n) : (calloc_bytes n)[i]? = some 0 := by
  simp [calloc_bytes, h]

/-- The buffer after `fread`: the length is that of the block. -/
theorem fread_length (n : Nat) (content : List Nat) :
    (content.take 255 ++ (calloc_bytes (n + 255)).drop (min 255 content.length)).length
      = n + 255 := by
  simp only [List.length_append, List.length_take, List.length_drop, calloc_bytes_length]
  omega

/-- Closed form of `read_file` on a file that opens: the first 255 bytes of
the file at most, then zeros up to 256 bytes, byte 255 being written last. -/
theorem read_file_eq (content : List Nat) :
    read_file (some content) = .ok (some
      ((content.take 255 ++ (calloc_bytes 256).drop (min 255 content.length)).set 255 0)) := by
  have h1 : 255 ≤ (calloc_bytes 256).length := by rw [calloc_bytes_length]; decide
  have h2 : 255 < (content.take 255 ++
      (calloc_bytes 256).drop (min 255 content.length)).length := by
    rw [fread_length 1 content]; decide
  have hf : fread (calloc_bytes 256) 255 content =
      .ok (content.take 255 ++ (calloc_bytes 256).drop (min 255 content.length)) := by
    unfold fread
    exact if_pos h1
  have hp : poke (content.take 255 ++ (calloc_bytes 256).drop (min 255 content.length)) 255 0 =
      .ok ((content.take 255 ++ (calloc_bytes 256).drop (min 255 content.length)).set 255 0) := by
    unfold poke
    exact if_pos h2
  unfold read_file
  simp only []
  rw [hf]
  simp only []
  rw [hp]

/-- C12: for every file content, `read_file` of `Solution/utils.c` returns a
buffer of 256 bytes that holds exactly the first `min(length, 255)` bytes of
the file, every later byte of the buffer being zero, byte 255 (the NUL
terminator) in particular; when the file cannot be opened it returns `NULL`. -/
theorem C12_read_file_terminated (content : List Nat) :
    (∃ buffer, read_file (some content) = .ok (some buffer) ∧ buffer.length = 256 ∧
      (∀ i, i < min content.length 255 → buffer[i]? = content[i]?) ∧
      (∀ i, min content.length 255 ≤ i → i < 256 → buffer[i]? = some 0) ∧
      buffer[255]? = some 0) ∧
    read_file none = .ok none := by
  have hlen : (content.take 255 ++ (calloc_bytes 256).drop (min 255 content.length)).length
      = 256 := fread_length 1 content
  have htake : (content.take 255).length = min 255 content.length := List.length_take _ _
  refine ⟨⟨_, read_file_eq content, ?_, ?_, ?_, ?_⟩, rfl⟩
  · rw [List.length_set, hlen]
  · intro i hi
    have h1 : i < (content.take 255).length := by rw [htake]; omega
    rw [List.getElem?_set_ne (by omega), List.getElem?_append_left h1, List.getElem?_take]
    have : i < 255 := by omega
    simp only [this, if_true]
  · intro i hlo hhi
    by_cases h255 : i = 255
    · subst h255
      rw [List.getElem?_set_self (by omega)]
    · rw [List.getElem?_set_ne (by omega),
        List.getElem?_append_right (by rw [htake]; omega), List.getElem?_drop, htake]
      exact calloc_bytes_get (by omega)
  · rw [List.getElem?_set_self (by omega)]

/-- Witness of C12: a file of three bytes. -/
theorem C12_read_file_terminated_witness :
    ∃ buffer, read_file (some [97, 98, 99]) = .ok (some buffer) ∧ buffer.length = 256 ∧
      buffer[0]? = some 97 ∧ buffer[2]? = some 99 ∧ buffer[3]? = some 0 ∧
      buffer[255]? = some 0 := by
  obtain ⟨buffer, h1, h2, h3, h4, h5⟩ := (C12_read_file_terminated [97, 98, 99]).1
  exact ⟨buffer, h1, h2, h3 0 (by decide), h3 2 (by decide), h4 3 (by decide) (by decide), h5⟩
/-! ## Claims on the accumulator of `compute_average` -/

/-- The function `compute_average` is its accumulation loop, run for `count`
iterations, followed by the `int` division. -/
theorem compute_average_accumulate (st : State) :
    compute_average st =
      match accumulate st.sensor.count.toNat st with
      | .ok (sum, st') =>
        match int_div sum st'.sensor.count with
        | .ok q => .ok (q, st')
        | .error e => .error e
      | .error e => .error e := rfl

theorem sum_take_nonneg : ∀ (l : List Int) (k : Nat), (∀ x ∈ l, 0 ≤ x) →
    0 ≤ (l.take k).sum ∧ (l.take k).sum ≤ l.sum := by
  intro l
  induction l with
  | nil => intro k _; simp
  | cons x xs ih =>
    intro k h
    have hx := h x (List.mem_cons_self _ _)
    have hxs : ∀ y ∈ xs, 0 ≤ y := fun y hy => h y (List.mem_cons_of_mem _ hy)
    cases k with
    | zero =>
      have := sum_nonneg_of_mem xs hxs
      simp only [List.take_zero, List.sum_nil, List.sum_cons]
      omega
    | succ k =>
      have := ih k hxs
      simp only [List.take_succ_cons, List.sum_cons]
      omega

theorem sum_le_of_le (b : Int) : ∀ (l : List Int), (∀ x ∈ l, x ≤ b) →
    l.sum ≤ b * l.length := by
  intro l
  induction l with
  | nil => intro _; simp
  | cons x xs ih =>
    intro h
    have hx := h x (List.mem_cons_self _ _)
    have := ih (fun y hy => h y (List.mem_cons_of_mem _ hy))
    simp only [List.sum_cons, List.length_cons]
    push_cast
    linarith

/-- The accumulator after `k` iterations is the wrapped sum of the first `k`
samples. -/
theorem accumulate_eq (k : Nat) (st : State) (hk : k ≤ st.sensor.readings.length) :
    accumulate k st = .ok (wrap32 (st.sensor.readings.take k).sum,
      { st with trace := st.trace ++ (List.range k).map Event.rd }) := by
  unfold accumulate
  rw [sum_loop k 0 0 st (by omega) (by decide)]
  simp [List.range_eq_range']
/-- C13: for every `count` with `1 <= count <= 19701684` (main's 50000
included) and non-negative `rand()` values, on the buffer `init_sensor(count)`
produces, after two `sensor_thread` passes, every sample lies in `[10, 110)`
and the 32-bit `int` accumulator of `compute_average` never overflows: after
each iteration it holds the mathematical sum of the samples read so far, which
is representable, and its final value is the mathematical sum of all the
samples, which `compute_average` then divides by `count`. -/
theorem C13_accumulator_no_overflow (count : Int) (rand : Nat → Int) (hlo : 1 ≤ count)
    (hhi : count ≤ 19701684) (hrand : ∀ k, 0 ≤ rand k) (tids : List Nat)
    (htids : tids.length = 2) :
    ∃ st st2, init_sensor count rand = .ok st ∧ passes tids st = .ok st2 ∧
      (∀ v ∈ st2.sensor.readings, 10 ≤ v ∧ v < 110) ∧
      (∀ k, k ≤ count.toNat → InRange (st2.sensor.readings.take k).sum ∧
        ∃ s, accumulate k st2 = .ok ((st2.sensor.readings.take k).sum, s)) ∧
      (∃ s, accumulate count.toNat st2 = .ok (st2.sensor.readings.sum, s)) ∧
      ∃ s, compute_average st2 = .ok (Int.tdiv st2.sensor.readings.sum count, s) := by
  have hst := init_sensor_eq count rand
  generalize hr : (List.range count.toNat).map (fun i => Int.tmod (rand i) 100) = r at hst
  have hlen : r.length = count.toNat := by rw [← hr]; simp
  have h01 : ∀ v ∈ r, 0 ≤ v ∧ v < 100 := by
    intro v hv
    rw [← hr] at hv
    simp only [List.mem_map] at hv
    obtain ⟨i, _, rfl⟩ := hv
    exact sample_range (hrand i)
  have hrange : ∀ v ∈ r, InRange v := by
    intro v hv
    have := h01 v hv
    unfold InRange INT_MIN INT_MAX
    omega
  have hp := passes_eq tids
    { sensor := { readings := r, count := count, lock := none },
      trace := (List.range count.toNat).map Event.wr } hlen rfl hrange
  have hmap : r.map (fun v => wrap32 (v + 5 * (tids.length : Int))) =
      r.map (fun v => v + 10) := by
    apply List.map_congr_left
    intro v hv
    have h1 := h01 v hv
    have h3 : InRange (v + 5 * (tids.length : Int)) := by
      rw [htids]
      unfold InRange INT_MIN INT_MAX
      push_cast
      omega
    rw [wrap32_of_inRange h3, htids]
    push_cast
    ring
  simp only [hmap] at hp
  generalize hr2 : r.map (fun v => v + 10) = r2 at hp
  have hlen2 : r2.length = count.toNat := by rw [← hr2, List.length_map, hlen]
  have h10 : ∀ v ∈ r2, 10 ≤ v ∧ v < 110 := by
    intro v hv
    rw [← hr2] at hv
    simp only [List.mem_map] at hv
    obtain ⟨w, hw, rfl⟩ := hv
    have := h01 w hw
    omega
  have hnonneg : ∀ v ∈ r2, 0 ≤ v := fun v hv => by have := h10 v hv; omega
  have hsum : r2.sum ≤ 2147483556 := by
    have h1 := sum_le_of_le 109 r2 (fun v hv => by have := h10 v hv; omega)
    have h2 : (r2.length : Int) = count := by rw [hlen2]; omega
    rw [h2] at h1
    omega
  have hpre : ∀ k, InRange (r2.take k).sum := by
    intro k
    have := sum_take_nonneg r2 k hnonneg
    unfold InRange INT_MIN INT_MAX
    omega
  have hacc : ∀ k, k ≤ count.toNat → ∃ s, accumulate k
      { sensor := { readings := r2, count := count, lock := none },
        trace := (List.range count.toNat).map Event.wr ++ tids.flatMap (passEvents count) }
      = .ok ((r2.take k).sum, s) := by
    intro k hk
    have h := accumulate_eq k
      { sensor := { readings := r2, count := count, lock := none },
        trace := (List.range count.toNat).map Event.wr ++ tids.flatMap (passEvents count) }
      (by simp only []; omega)
    simp only [wrap32_of_inRange (hpre k)] at h
    exact ⟨_, h⟩
  have hall : r2.take count.toNat = r2 := by rw [← hlen2]; exact List.take_length r2
  refine ⟨_, _, hst, hp, h10, fun k hk => ⟨hpre k, hacc k hk⟩, ?_, ?_⟩
  · obtain ⟨s, hs⟩ := hacc count.toNat (le_refl _)
    rw [hall] at hs
    exact ⟨s, hs⟩
  · have h := compute_average_eq
      { sensor := { readings := r2, count := count, lock := none },
        trace := (List.range count.toNat).map Event.wr ++ tids.flatMap (passEvents count) }
      hlen2 (by simp only []; omega)
    have hin := hpre count.toNat
    rw [hall] at hin
    simp only [wrap32_of_inRange hin] at h
    exact ⟨_, h⟩

/-- Witness of C13: main's `count = 50000` and two workers. -/
theorem C13_accumulator_no_overflow_witness :
    ∃ st st2, init_sensor 50000 (fun k => 37 * (k : Int) + 1234) = .ok st ∧
      passes [0, 1] st = .ok st2 ∧
      (∀ v ∈ st2.sensor.readings, 10 ≤ v ∧ v < 110) ∧
      (∃ s, accumulate (50000 : Int).toNat st2 = .ok (st2.sensor.readings.sum, s)) ∧
      ∃ s, compute_average st2 = .ok (Int.tdiv st2.sensor.readings.sum 50000, s) := by
  obtain ⟨st, st2, h1, h2, h3, _, h5, h6⟩ :=
    C13_accumulator_no_overflow 50000 (fun k => 37 * (k : Int) + 1234) (by decide) (by decide)
      (fun k => by show (0 : Int) ≤ 37 * (k : Int) + 1234; omega) [0, 1] rfl
  exact ⟨st, st2, h1, h2, h3, h5, h6⟩
/-- C14: `compute_average` divides in `int` before the conversion to `double`:
for every buffer with `count > 0` whose samples are all non-negative and
whose sum fits in a 32-bit `int`, the value returned is the integer
`floor(sum / count)`; it is integral and satisfies
`result <= mean < result + 1`. -/
theorem C14_average_floor (st : State) (hcount : 0 < st.sensor.count)
    (hlen : st.sensor.readings.length = st.sensor.count.toNat)
    (hnonneg : ∀ v ∈ st.sensor.readings, 0 ≤ v)
    (hfit : st.sensor.readings.sum ≤ INT_MAX) :
    ∃ a st', compute_average st = .ok (a, st') ∧
      a = st.sensor.readings.sum / st.sensor.count ∧
      a = ⌊exactMean st.sensor⌋ ∧
      (a : ℚ) ≤ exactMean st.sensor ∧ exactMean st.sensor < (a : ℚ) + 1 := by
  have hS := sum_nonneg_of_mem _ hnonneg
  have hin : InRange st.sensor.readings.sum := by
    unfold InRange INT_MIN INT_MAX at *
    omega
  have hrun := compute_average_eq st hlen (by omega)
  rw [wrap32_of_inRange hin, Int.tdiv_eq_ediv hS (by omega)] at hrun
  have hc : (0 : ℚ) < (st.sensor.count : ℚ) := by exact_mod_cast hcount
  have h1 : st.sensor.readings.sum / st.sensor.count * st.sensor.count
      ≤ st.sensor.readings.sum := Int.ediv_mul_le _ (by omega)
  have h2 : st.sensor.readings.sum
      < (st.sensor.readings.sum / st.sensor.count + 1) * st.sensor.count :=
    Int.lt_ediv_add_one_mul_self _ hcount
  have hle : ((st.sensor.readings.sum / st.sensor.count : Int) : ℚ) ≤ exactMean st.sensor := by
    unfold exactMean
    rw [le_div_iff₀ hc]
    exact_mod_cast h1
  have hlt : exactMean st.sensor
      < ((st.sensor.readings.sum / st.sensor.count : Int) : ℚ) + 1 := by
    unfold exactMean
    rw [div_lt_iff₀ hc]
    exact_mod_cast h2
  refine ⟨_, _, hrun, rfl, ?_, hle, hlt⟩
  symm
  rw [Int.floor_eq_iff]
  exact ⟨hle, hlt⟩

/-- Witness of C14: the buffer `[1, 2, 4]`, sum 7, mean 7/3, result 2. -/
theorem C14_average_floor_witness :
    ∃ a st', compute_average (mkState [1, 2, 4]) = .ok (a, st') ∧
      a = 2 ∧ a = ⌊exactMean (mkState [1, 2, 4]).sensor⌋ ∧
      (a : ℚ) ≤ exactMean (mkState [1, 2, 4]).sensor ∧
      exactMean (mkState [1, 2, 4]).sensor < (a : ℚ) + 1 := by
  obtain ⟨a, st', h1, h2, h3, h4, h5⟩ :=
    C14_average_floor (mkState [1, 2, 4]) (by decide) (by decide) (by decide) (by decide)
  exact ⟨a, st', h1, h2, h3, h4, h5⟩

end Sensor
